import Mathlib

/-!
# Shallow embedding of the findata_engine tiered time-series store

Definitions below translate the C++ sources (`src/memory_layer.cpp`,
`src/disk_layer.cpp`, `src/storage_engine.cpp`).  Timestamps are modelled as
`Int` (ticks of `std::chrono::system_clock::time_point`); the sentinels
`time_point::min()` / `time_point::max()` are the extreme signed 64-bit tick
counts.  Values are carried verbatim and never computed with, so the IEEE-754
payload is modelled by an `Int` carrier.  `std::unordered_map` iteration order
is unspecified in C++; it is determinized here as first-occurrence /
insertion order, which is the only place the embedding chooses among
behaviours the source leaves open.  Blocking I/O either succeeds or fails;
that outcome is passed in as an explicit boolean oracle where the source
consults it.
-/

namespace FindataEngine

/-- `TimeSeriesPoint` from `include/findata_engine/types.hpp` (field order:
timestamp, value, symbol). -/
structure TimeSeriesPoint where
  timestamp : Int
  value : Int
  symbol : String
  deriving DecidableEq, Repr

/-- Tick count of `std::chrono::system_clock::time_point::min()`. -/
def tMIN : Int := -(2 ^ 63)

/-- Tick count of `std::chrono::system_clock::time_point::max()`. -/
def tMAX : Int := 2 ^ 63 - 1

/-- The comparator `a.timestamp < b.timestamp` used throughout the sources,
in its reflexive closure form used to state sortedness of its outputs. -/
def tsLe (a b : TimeSeriesPoint) : Prop := a.timestamp ≤ b.timestamp

/-- Strict timestamp order between points. -/
def tsLt (a b : TimeSeriesPoint) : Prop := a.timestamp < b.timestamp

instance : DecidableRel tsLe := fun a b =>
  inferInstanceAs (Decidable (a.timestamp ≤ b.timestamp))

instance : DecidableRel tsLt := fun a b =>
  inferInstanceAs (Decidable (a.timestamp < b.timestamp))

instance : IsTotal TimeSeriesPoint tsLe :=
  ⟨fun a b => Int.le_total a.timestamp b.timestamp⟩

instance : IsTrans TimeSeriesPoint tsLe :=
  ⟨fun _ _ _ h1 h2 => le_trans h1 h2⟩

/-- A sorted permutation by timestamp: the observable outcome of
`std::sort(..., [](a, b){ return a.timestamp < b.timestamp; })`.  `std::sort`
leaves the order among equal timestamps unspecified; the embedding
determinizes it to the stable one. -/
def sortByTs (l : List TimeSeriesPoint) : List TimeSeriesPoint :=
  List.insertionSort tsLe l

/-- `std::merge` with the timestamp comparator: elements are taken from the
second run only when strictly smaller, so ties keep the first run's element
first. -/
def mergeByTs : List TimeSeriesPoint → List TimeSeriesPoint → List TimeSeriesPoint
  | [], l2 => l2
  | l1, [] => l1
  | a :: as, b :: bs =>
    if b.timestamp < a.timestamp then b :: mergeByTs (a :: as) bs
    else a :: mergeByTs as (b :: bs)
termination_by l1 l2 => l1.length + l2.length

/-- `std::unique` with the timestamp equality predicate: drops an element
whose timestamp equals the last kept element's. -/
def dedupByTs : List TimeSeriesPoint → List TimeSeriesPoint
  | [] => []
  | [a] => [a]
  | a :: b :: rest =>
    if a.timestamp = b.timestamp then dedupByTs (a :: rest)
    else a :: dedupByTs (b :: rest)
termination_by l => l.length

/-- First occurrences of a list of keys, in order: the determinized iteration
order of an `std::unordered_map` populated by those keys. -/
def firstOccs : List String → List String
  | [] => []
  | s :: rest => s :: firstOccs (rest.filter (fun x => decide (¬ x = s)))
termination_by l => l.length
decreasing_by
  simp only [List.length_cons]
  exact Nat.lt_succ_of_le (List.length_filter_le _ _)

/-- Grouping a batch by `point.symbol` (the `grouped_points` unordered_map
built by both `MemoryLayer::insert_batch` and `DiskLayer::write_batch`): one
group per distinct symbol, each group keeping the batch's relative order. -/
def groupBySymbol (ps : List TimeSeriesPoint) : List (String × List TimeSeriesPoint) :=
  (firstOccs (ps.map (·.symbol))).map
    (fun s => (s, ps.filter (fun p => decide (p.symbol = s))))

/-- Lookup in an association list (deterministic image of map `find`). -/
def assocFind {β : Type} (l : List (String × β)) (k : String) : Option β :=
  match l with
  | [] => none
  | (k', v) :: rest => if k' = k then some v else assocFind rest k

/-- `map[k] = v`: replace the first binding of `k`, or append a new one. -/
def assocSet {β : Type} (l : List (String × β)) (k : String) (v : β) :
    List (String × β) :=
  match l with
  | [] => [(k, v)]
  | (k', v') :: rest =>
    if k' = k then (k, v) :: rest else (k', v') :: assocSet rest k v

/-- Lookup in a `segment_id`-keyed association list. -/
def segFind {β : Type} (l : List (Nat × β)) (k : Nat) : Option β :=
  match l with
  | [] => none
  | (k', v) :: rest => if k' = k then some v else segFind rest k

/-- `inner_map[id] = seg` on the `segment_id`-keyed association list. -/
def segSet {β : Type} (l : List (Nat × β)) (k : Nat) (v : β) : List (Nat × β) :=
  match l with
  | [] => [(k, v)]
  | (k', v') :: rest =>
    if k' = k then (k, v) :: rest else (k', v') :: segSet rest k v

/-- `std::lower_bound(start)` to `std::upper_bound(end)` on a vector of
points: drop the prefix strictly below `a`, then take while at most `b`
(`MemoryLayer::get_range`, upper bound inclusive). -/
def rangeOfList (pts : List TimeSeriesPoint) (a b : Int) : List TimeSeriesPoint :=
  (pts.dropWhile (fun p => decide (p.timestamp < a))).takeWhile
    (fun p => decide (p.timestamp ≤ b))

/-! ## Memory layer (`src/memory_layer.cpp`) -/

/-- `MemoryLayer::Impl`: the `symbol_data` map (symbol to its sorted point
vector) plus the `total_points_` counter. -/
structure MemoryLayer where
  data : List (String × List TimeSeriesPoint)
  totalPoints : Nat
  deriving DecidableEq, Repr

/-- The freshly constructed memory layer. -/
def memInit : MemoryLayer := ⟨[], 0⟩

/-- The insertion-position search of `MemoryLayer::insert`: walk to the first
element not below `p`; `none` signals the duplicate-timestamp rejection. -/
def insertPoint (p : TimeSeriesPoint) :
    List TimeSeriesPoint → Option (List TimeSeriesPoint)
  | [] => some [p]
  | q :: rest =>
    if p.timestamp < q.timestamp then some (p :: q :: rest)
    else if p.timestamp = q.timestamp then none
    else (insertPoint p rest).map (q :: ·)

/-- `MemoryLayer::insert`: create the symbol's vector on demand, reject a
duplicate timestamp with `false`, otherwise insert sorted and count. -/
def memInsert (m : MemoryLayer) (p : TimeSeriesPoint) : Bool × MemoryLayer :=
  match assocFind m.data p.symbol with
  | some pts =>
    match insertPoint p pts with
    | none => (false, m)
    | some l' =>
      (true, ⟨assocSet m.data p.symbol l', m.totalPoints + 1⟩)
  | none => (true, ⟨m.data ++ [(p.symbol, [p])], m.totalPoints + 1⟩)

/-- One group of `MemoryLayer::insert_batch`: sort the group, merge with the
existing vector, drop duplicate timestamps, count the net growth. -/
def memMergeStep (m : MemoryLayer) (g : String × List TimeSeriesPoint) :
    MemoryLayer :=
  let old := (assocFind m.data g.1).getD []
  let merged := dedupByTs (mergeByTs old (sortByTs g.2))
  ⟨assocSet m.data g.1 merged, m.totalPoints + (merged.length - old.length)⟩

/-- `MemoryLayer::insert_batch` (its return value is the constant `true` in
the source, so only the state evolution is modelled). -/
def memInsertBatch (m : MemoryLayer) (ps : List TimeSeriesPoint) : MemoryLayer :=
  (groupBySymbol ps).foldl memMergeStep m

/-- `MemoryLayer::get_range`. -/
def memGetRange (m : MemoryLayer) (s : String) (a b : Int) :
    List TimeSeriesPoint :=
  match assocFind m.data s with
  | none => []
  | some pts => rangeOfList pts a b

/-- `MemoryLayer::clear_cache`: every symbol's vector is emptied (the keys
survive) and the counter resets. -/
def clearCache (m : MemoryLayer) : MemoryLayer :=
  ⟨m.data.map (fun e => (e.1, ([] : List TimeSeriesPoint))), 0⟩

/-- `MemoryLayer::get_symbols` (determinized to key insertion order). -/
def memSymbols (m : MemoryLayer) : List String := m.data.map Prod.fst

/-- The free sequence of mutating memory-layer calls quantified over by the
spec's P1. -/
inductive MemOp where
  | ins (p : TimeSeriesPoint)
  | insBatch (ps : List TimeSeriesPoint)

/-- Apply one memory-layer call. -/
def memExec (m : MemoryLayer) : MemOp → MemoryLayer
  | .ins p => (memInsert m p).2
  | .insBatch ps => memInsertBatch m ps

/-- Run a sequence of memory-layer calls from the fresh layer. -/
def memRun (ops : List MemOp) : MemoryLayer :=
  ops.foldl memExec memInit

/-! ## Disk layer (`src/disk_layer.cpp`)

A segment file together with its `SegmentInfo` entry.  The payload bytes
round-trip losslessly through the external codec per the interface contract,
so a segment is modelled by the points its file holds; `num_points` is the
length of that list and the file path is determined by `(symbol, id)`. -/

/-- One on-disk segment: `SegmentInfo` bounds plus the decoded payload. -/
structure Segment where
  startTime : Int
  endTime : Int
  points : List TimeSeriesPoint
  deriving DecidableEq, Repr

/-- `DiskLayer::Impl`: the two-level `metadata` index, with each entry also
standing for the segment file it points at (invariant S2). -/
structure DiskLayer where
  metadata : List (String × List (Nat × Segment))
  deriving DecidableEq, Repr

/-- A disk layer over an empty data directory. -/
def diskInit : DiskLayer := ⟨[]⟩

/-- `DiskLayer::Impl::write_segment`: empty input writes nothing; otherwise
the header records the first and last timestamps of the (caller-sorted) run
and `metadata[symbol][segment_id]` is set. -/
def writeSegment (d : DiskLayer) (s : String) (pts : List TimeSeriesPoint)
    (idx : Nat) : DiskLayer :=
  match pts with
  | [] => d
  | p :: rest =>
    let seg : Segment := ⟨p.timestamp, (rest.getLastD p).timestamp, p :: rest⟩
    ⟨assocSet d.metadata s (segSet ((assocFind d.metadata s).getD []) idx seg)⟩

/-- `max_element` over the inner map's keys (called only when nonempty). -/
def maxSegId (segs : List (Nat × Segment)) : Nat :=
  segs.foldl (fun acc kv => Nat.max acc kv.1) 0

/-- The next segment id allocated by `DiskLayer::write_batch`:
`max(existing)+1`, or `0` when the symbol has no segments. -/
def nextSegId (d : DiskLayer) (s : String) : Nat :=
  match assocFind d.metadata s with
  | none => 0
  | some segs => if segs.isEmpty then 0 else maxSegId segs + 1

/-- `DiskLayer::write_batch`: group by symbol, sort each group, and write
each group as one fresh segment. -/
def diskWriteBatch (d : DiskLayer) (ps : List TimeSeriesPoint) : DiskLayer :=
  if ps.isEmpty then d
  else
    (groupBySymbol ps).foldl
      (fun acc g => writeSegment acc g.1 (sortByTs g.2) (nextSegId acc g.1)) d

/-- `DiskLayer::Impl::range_query`: take the segments whose recorded
`[start_time, end_time]` meets `[start, end]`, keep each contained point with
`start <= timestamp < end` (upper bound exclusive at this layer), and sort. -/
def diskReadRange (d : DiskLayer) (s : String) (a b : Int) :
    List TimeSeriesPoint :=
  match assocFind d.metadata s with
  | none => []
  | some segs =>
    let rel := segs.filter
      (fun kv => decide (kv.2.startTime ≤ b) && decide (a ≤ kv.2.endTime))
    sortByTs
      ((rel.map (fun kv => kv.2.points.filter
        (fun p => decide (a ≤ p.timestamp) && decide (p.timestamp < b)))).flatten)

/-- `for (i = 0; i < n; i += 10000)` chunking of the compaction rewrite, with
an explicit structural fuel equal to the list length (each step consumes at
least one element, so the fuel never runs out). -/
def chunkGo : Nat → List TimeSeriesPoint → List (List TimeSeriesPoint)
  | 0, _ => []
  | _, [] => []
  | Nat.succ fuel, l@(_ :: _) => l.take 10000 :: chunkGo fuel (l.drop 10000)

/-- Split a point run into consecutive chunks of at most 10000 points. -/
def chunkPoints (l : List TimeSeriesPoint) : List (List TimeSeriesPoint) :=
  chunkGo l.length l

/-- Write the chunks back as segments numbered `i, i+1, ...`. -/
def writeChunks (d : DiskLayer) (s : String) :
    List (List TimeSeriesPoint) → Nat → DiskLayer
  | [], _ => d
  | c :: cs, i => writeChunks (writeSegment d s c i) s cs (i + 1)

/-- `DiskLayer::compact_segments`, i.e. `Impl::optimize_segments`: concatenate
the symbol's segments, delete their files, sort, and rewrite in chunks of at
most 10000 points with ids from 0.  The source has no duplicate removal on
this path.  When everything read back is empty the files are gone but the
metadata entries remain (the early return skips the clear). -/
def compactSegments (d : DiskLayer) (s : String) : DiskLayer :=
  match assocFind d.metadata s with
  | none => d
  | some segs =>
    let allPoints := (segs.map (fun kv => kv.2.points)).flatten
    if allPoints.isEmpty then d
    else
      writeChunks ⟨assocSet d.metadata s []⟩ s (chunkPoints (sortByTs allPoints)) 0

/-- The per-symbol body of `DiskLayer::optimize_index`: like compaction but
with the `std::unique` duplicate removal after sorting. -/
def optimizeOneSymbol (d : DiskLayer) (s : String) : DiskLayer :=
  match assocFind d.metadata s with
  | none => d
  | some segs =>
    let allPoints := (segs.map (fun kv => kv.2.points)).flatten
    if allPoints.isEmpty then d
    else
      writeChunks ⟨assocSet d.metadata s []⟩ s
        (chunkPoints (dedupByTs (sortByTs allPoints))) 0

/-- `DiskLayer::optimize_index`: apply the rewrite to every indexed symbol
(per-symbol failures are caught and logged in the source; the pure model has
none). -/
def optimizeIndex (d : DiskLayer) : DiskLayer :=
  (d.metadata.map Prod.fst).foldl optimizeOneSymbol d

/-! ## Storage engine (`src/storage_engine.cpp`) -/

/-- `StorageEngine::Impl`: the two tiers, the counters, and the auto-flush
threshold from the config. -/
structure Engine where
  memory : MemoryLayer
  disk : DiskLayer
  totalPoints : Nat
  cacheHits : Nat
  cacheMisses : Nat
  maxMemoryPoints : Nat
  deriving DecidableEq, Repr

/-- A fresh engine over an empty data directory. -/
def engineInit (maxMemoryPoints : Nat) : Engine :=
  ⟨memInit, diskInit, 0, 0, 0, maxMemoryPoints⟩

/-- The `points_to_flush` collection loop of `StorageEngine::Impl::flush`:
for every symbol in the memory layer, its full range
`[time_point::min(), time_point::max()]`. -/
def collectPoints (m : MemoryLayer) : List TimeSeriesPoint :=
  (memSymbols m).flatMap (fun s => memGetRange m s tMIN tMAX)

/-- `StorageEngine::Impl::flush`: collect every symbol's full range from the
memory layer; an empty collection returns `true` untouched; otherwise hand
the batch to the disk layer (`ok` is the outcome of that write) and clear
the memory layer only on success. -/
def engineFlush (st : Engine) (ok : Bool) : Bool × Engine :=
  let pts := collectPoints st.memory
  if pts.isEmpty then (true, st)
  else if ok then
    (true, { st with memory := clearCache st.memory,
                     disk := diskWriteBatch st.disk pts })
  else (false, st)

/-- `StorageEngine::Impl::write_point`: a duplicate insert returns `false`
and changes nothing; a fresh insert counts the point and flushes when the
memory layer has reached `max_memory_points`. -/
def engineWritePoint (st : Engine) (p : TimeSeriesPoint) (ok : Bool) :
    Bool × Engine :=
  match memInsert st.memory p with
  | (false, _) => (false, st)
  | (true, m') =>
    let st1 : Engine := { st with memory := m', totalPoints := st.totalPoints + 1 }
    if st.maxMemoryPoints ≤ m'.totalPoints then engineFlush st1 ok
    else (true, st1)

/-- `StorageEngine::Impl::write_batch` (the memory layer's batch insert
always reports success, so only the size-triggered flush branches). -/
def engineWriteBatch (st : Engine) (ps : List TimeSeriesPoint) (ok : Bool) :
    Bool × Engine :=
  if ps.isEmpty then (true, st)
  else
    let m' := memInsertBatch st.memory ps
    let st1 : Engine := { st with memory := m',
                                  totalPoints := st.totalPoints + ps.length }
    if st.maxMemoryPoints ≤ m'.totalPoints then engineFlush st1 ok
    else (true, st1)

/-- `StorageEngine::Impl::read_range`: memory snapshot plus disk query,
concatenated and sorted; duplicates across tiers are not removed. -/
def engineReadRange (st : Engine) (s : String) (a b : Int) :
    List TimeSeriesPoint :=
  sortByTs (memGetRange st.memory s a b ++ diskReadRange st.disk s a b)

/-- `StorageEngine::Impl::optimize`: flush, then rewrite the whole index. -/
def engineOptimize (st : Engine) (ok : Bool) : Engine :=
  let st1 := (engineFlush st ok).2
  { st1 with disk := optimizeIndex st1.disk }

/-- `StorageEngine::Impl::get_cache_hit_ratio`: the exact rational the double
division denotes, with the zero-requests guard. -/
def cacheHitRatio (st : Engine) : ℚ :=
  if 0 < st.cacheHits + st.cacheMisses then
    (st.cacheHits : ℚ) / ((st.cacheHits : ℚ) + (st.cacheMisses : ℚ))
  else 0

/-- `EngineStats` as returned by `StorageEngine::get_stats` (the
`storage_size_bytes` field is a filesystem size query outside the pure
state and is not part of any claim). -/
structure EngineStats where
  totalPoints : Nat
  cacheHits : Nat
  cacheMisses : Nat
  cacheHitRatio : ℚ
  deriving DecidableEq, Repr

/-- `StorageEngine::get_stats`. -/
def getStats (st : Engine) : EngineStats :=
  ⟨st.totalPoints, st.cacheHits, st.cacheMisses, cacheHitRatio st⟩

/-- The public engine calls, each carrying the oracle for any disk write it
may perform; the read-only calls leave the state unchanged in the source. -/
inductive EngOp where
  | writePoint (p : TimeSeriesPoint) (ok : Bool)
  | writeBatch (ps : List TimeSeriesPoint) (ok : Bool)
  | flushOp (ok : Bool)
  | readRange (s : String) (a b : Int)
  | getLatest (s : String)
  | getSymbols
  | optimize (ok : Bool)
  | getStatsOp

/-- State evolution of one public engine call. -/
def engExec (st : Engine) : EngOp → Engine
  | .writePoint p ok => (engineWritePoint st p ok).2
  | .writeBatch ps ok => (engineWriteBatch st ps ok).2
  | .flushOp ok => (engineFlush st ok).2
  | .readRange _ _ _ => st
  | .getLatest _ => st
  | .getSymbols => st
  | .optimize ok => engineOptimize st ok
  | .getStatsOp => st

/-- Run a sequence of public calls from a fresh engine. -/
def engRun (maxMemoryPoints : Nat) (ops : List EngOp) : Engine :=
  ops.foldl engExec (engineInit maxMemoryPoints)

/-! ## Startup index recovery (`DiskLayer::Impl::load_existing_segments`)

The scan walks the data directory; each regular file is modelled by its name
together with the `u64` its payload header yields for
`count_points_in_segment`.  `std::stoll` throws `std::invalid_argument` when
no digits can be consumed; `Except.error` models that exception escaping the
scan (and hence the `DiskLayer` constructor). -/

/-- Decimal value of a digit run. -/
def digitsToNat (ds : List Char) : Nat :=
  ds.foldl (fun acc c => acc * 10 + (c.toNat - 48)) 0

/-- `std::stoll`: skip leading blanks, take an optional sign, then consume
the leading digit run (trailing junk is ignored); no digits throws. -/
def stollChars (cs : List Char) : Except Unit Int :=
  let cs1 := cs.dropWhile (fun c => decide (c = ' '))
  match cs1 with
  | '-' :: rest =>
    let ds := rest.takeWhile Char.isDigit
    if ds.isEmpty then .error () else .ok (-(digitsToNat ds : Int))
  | '+' :: rest =>
    let ds := rest.takeWhile Char.isDigit
    if ds.isEmpty then .error () else .ok (digitsToNat ds : Int)
  | rest =>
    let ds := rest.takeWhile Char.isDigit
    if ds.isEmpty then .error () else .ok (digitsToNat ds : Int)

/-- Index of the last occurrence of a character. -/
def lastIndexOf (c : Char) : List Char → Option Nat
  | [] => none
  | x :: rest =>
    match lastIndexOf c rest with
    | some i => some (i + 1)
    | none => if x = c then some 0 else none

/-- A provisional index entry built by the scan. -/
structure RecoveredSegment where
  startTime : Int
  endTime : Int
  numPoints : Nat
  deriving DecidableEq, Repr

/-- Split a filename at its extension as `std::filesystem::path` does: the
extension starts at the last dot, except that a lone leading dot is part of
the stem. -/
def stemAndExt (name : List Char) : List Char × List Char :=
  match lastIndexOf '.' name with
  | none => (name, [])
  | some 0 => (name, [])
  | some i => (name.take i, name.drop i)

/-- Parse one directory entry name as the scanner does: `none` means the
entry is skipped (wrong extension or no underscore); an `std::stoll` failure
on either timestamp field escapes as `Except.error`. -/
def parseSegName (name : String) : Except Unit (Option (String × Int × Int)) :=
  let (stem, ext) := stemAndExt name.toList
  if ext = ['.', 'd', 'a', 't'] then
    match stem.findIdx? (fun c => decide (c = '_')), lastIndexOf '_' stem with
    | some f, some l =>
      let symbol := (stem.take f).asString
      let startField := if f = l then stem.drop (f + 1)
                        else (stem.drop (f + 1)).take (l - f - 1)
      let endField := stem.drop (l + 1)
      match stollChars startField, stollChars endField with
      | .ok s, .ok e => .ok (some (symbol, s, e))
      | _, _ => .error ()
    | _, _ => .ok none
  else .ok none

/-- The scan loop: build `metadata[symbol][0]` for each parseable name (the
inner key is the constant 0 in the source), skip the unparseable-but-harmless
ones, and propagate any `std::stoll` exception. -/
def loadGo : List (String × Nat) →
    List (String × List (Nat × RecoveredSegment)) →
    Except Unit (List (String × List (Nat × RecoveredSegment)))
  | [], acc => .ok acc
  | (name, np) :: rest, acc =>
    match parseSegName name with
    | .error _ => .error ()
    | .ok none => loadGo rest acc
    | .ok (some (symbol, s, e)) =>
      loadGo rest
        (assocSet acc symbol
          (segSet ((assocFind acc symbol).getD []) 0 ⟨s, e, np⟩))

/-- `DiskLayer::Impl::load_existing_segments` over a directory listing. -/
def loadExistingSegments (entries : List (String × Nat)) :
    Except Unit (List (String × List (Nat × RecoveredSegment))) :=
  loadGo entries []

/-- The `SegmentInfo`-plus-payload a `write_segment` call produces for a
nonempty run (specification-side shorthand used to state what the write
fold builds; `writeSegment` itself is the translation of the source). -/
def segOf (pts : List TimeSeriesPoint) : Segment :=
  match pts with
  | [] => ⟨0, 0, []⟩
  | p :: rest => ⟨p.timestamp, (rest.getLastD p).timestamp, p :: rest⟩

/-! ## Invariants referred to by the claims -/

/-- Invariant M1: every per-symbol vector in the memory layer is strictly
increasing in timestamp. -/
def memWF (m : MemoryLayer) : Prop :=
  ∀ e ∈ m.data, List.Sorted tsLt e.2

/-- Segment-bounds soundness: each indexed segment's recorded
`[start_time, end_time]` brackets every point its file holds (what
`write_segment` establishes for sorted runs). -/
def segBoundsOK (segs : List (Nat × Segment)) : Prop :=
  ∀ kv ∈ segs, ∀ p ∈ kv.2.points,
    kv.2.startTime ≤ p.timestamp ∧ p.timestamp ≤ kv.2.endTime

/-! ## Concrete inputs used by the counterexamples and witnesses -/

/-- Two on-disk segments for symbol "A", each holding one point at the same
timestamp 1: the state reached by writing the same timestamp in two batches
with a flush in between. -/
def dupDisk : DiskLayer :=
  ⟨[("A", [(0, ⟨1, 1, [⟨1, 10, "A"⟩]⟩), (1, ⟨1, 1, [⟨1, 20, "A"⟩]⟩)])]⟩

/-- A three-point batch over two symbols, with one duplicated timestamp. -/
def exBatch : List TimeSeriesPoint :=
  [⟨5, 50, "A"⟩, ⟨3, 30, "A"⟩, ⟨5, 51, "A"⟩, ⟨7, 70, "B"⟩]

/-- A small engine state holding sorted points for symbol "A" in memory. -/
def exEngine : Engine :=
  { memory := ⟨[("A", [⟨1, 10, "A"⟩, ⟨4, 40, "A"⟩])], 2⟩
    disk := diskInit
    totalPoints := 2
    cacheHits := 0
    cacheMisses := 0
    maxMemoryPoints := 1000000 }

/-- An engine whose memory layer has a symbol key but no points (the state
after a flush). -/
def drainedEngine : Engine :=
  { memory := ⟨[("A", [])], 0⟩
    disk := ⟨[("A", [(0, ⟨1, 4, [⟨1, 10, "A"⟩, ⟨4, 40, "A"⟩]⟩)])]⟩
    totalPoints := 2
    cacheHits := 0
    cacheMisses := 0
    maxMemoryPoints := 1000000 }

/-- A disk with two segments for "A" (one outside the query window) and one
segment for "B". -/
def exDisk : DiskLayer :=
  ⟨[("A", [(0, ⟨1, 3, [⟨1, 10, "A"⟩, ⟨3, 30, "A"⟩]⟩),
           (1, ⟨8, 9, [⟨8, 80, "A"⟩, ⟨9, 90, "A"⟩]⟩)]),
    ("B", [(0, ⟨2, 2, [⟨2, 20, "B"⟩]⟩)])]⟩

/-! ## Lemmas about the ordering primitives -/

theorem mergeByTs_nil_left (l : List TimeSeriesPoint) : mergeByTs [] l = l := by
  cases l <;> simp [mergeByTs]

theorem mergeByTs_nil_right (l : List TimeSeriesPoint) : mergeByTs l [] = l := by
  cases l <;> simp [mergeByTs]

theorem mergeByTs_perm (l1 l2 : List TimeSeriesPoint) :
    (mergeByTs l1 l2).Perm (l1 ++ l2) := by
  induction l1, l2 using mergeByTs.induct with
  | case1 l2 => simp [mergeByTs_nil_left]
  | case2 l1 => simp [mergeByTs_nil_right]
  | case3 a as b bs hlt ih =>
    rw [mergeByTs, if_pos hlt]
    exact (ih.cons b).trans List.perm_middle.symm
  | case4 a as b bs hlt ih =>
    rw [mergeByTs, if_neg hlt]
    exact ih.cons a

theorem mem_mergeByTs {p : TimeSeriesPoint} {l1 l2 : List TimeSeriesPoint} :
    p ∈ mergeByTs l1 l2 ↔ p ∈ l1 ∨ p ∈ l2 := by
  rw [(mergeByTs_perm l1 l2).mem_iff, List.mem_append]

theorem sorted_mergeByTs {l1 l2 : List TimeSeriesPoint}
    (h1 : List.Sorted tsLe l1) (h2 : List.Sorted tsLe l2) :
    List.Sorted tsLe (mergeByTs l1 l2) := by
  induction l1, l2 using mergeByTs.induct with
  | case1 l2 => simpa [mergeByTs_nil_left] using h2
  | case2 l1 => simpa [mergeByTs_nil_right] using h1
  | case3 a as b bs hlt ih =>
    rw [mergeByTs, if_pos hlt]
    rw [List.sorted_cons] at h2 ⊢
    refine ⟨?_, ih h1 h2.2⟩
    intro y hy
    rcases mem_mergeByTs.mp hy with hy | hy
    · rcases List.mem_cons.mp hy with rfl | hy
      · exact le_of_lt hlt
      · have := (List.sorted_cons.mp h1).1 y hy
        exact le_trans (le_of_lt hlt) this
    · exact h2.1 y hy
  | case4 a as b bs hlt ih =>
    rw [mergeByTs, if_neg hlt]
    rw [List.sorted_cons] at h1 ⊢
    refine ⟨?_, ih h1.2 h2⟩
    intro y hy
    rcases mem_mergeByTs.mp hy with hy | hy
    · exact h1.1 y hy
    · have hab : a.timestamp ≤ b.timestamp := le_of_not_lt hlt
      rcases List.mem_cons.mp hy with rfl | hy
      · exact hab
      · exact le_trans hab ((List.sorted_cons.mp h2).1 y hy)

theorem dedupByTs_sublist (l : List TimeSeriesPoint) : (dedupByTs l).Sublist l := by
  induction l using dedupByTs.induct with
  | case1 => simp [dedupByTs]
  | case2 a => simp [dedupByTs]
  | case3 a b rest heq ih =>
    rw [dedupByTs, if_pos heq]
    exact ih.trans ((List.sublist_cons_self b rest).cons_cons a)
  | case4 a b rest heq ih =>
    rw [dedupByTs, if_neg heq]
    exact ih.cons_cons a

theorem mem_of_mem_dedupByTs {p : TimeSeriesPoint} {l : List TimeSeriesPoint}
    (h : p ∈ dedupByTs l) : p ∈ l :=
  (dedupByTs_sublist l).mem h

theorem ts_mem_dedupByTs {t : Int} {l : List TimeSeriesPoint} :
    t ∈ (dedupByTs l).map TimeSeriesPoint.timestamp ↔
      t ∈ l.map TimeSeriesPoint.timestamp := by
  constructor
  · intro h
    exact ((dedupByTs_sublist l).map TimeSeriesPoint.timestamp).mem h
  · intro h
    induction l using dedupByTs.induct with
    | case1 => simp at h
    | case2 a => simpa [dedupByTs] using h
    | case3 a b rest heq ih =>
      rw [dedupByTs, if_pos heq]
      rcases List.mem_map.mp h with ⟨q, hq, rfl⟩
      rcases List.mem_cons.mp hq with rfl | hq
      · exact ih (by simp)
      rcases List.mem_cons.mp hq with rfl | hq
      · exact ih (by simp [heq])
      · exact ih (by simp [List.mem_map]; exact Or.inr ⟨q, hq, rfl⟩)
    | case4 a b rest heq ih =>
      rw [dedupByTs, if_neg heq]
      rcases List.mem_map.mp h with ⟨q, hq, rfl⟩
      rcases List.mem_cons.mp hq with rfl | hq
      · simp
      · simp only [List.map_cons, List.mem_cons]
        exact Or.inr (ih (List.mem_map_of_mem TimeSeriesPoint.timestamp hq))

theorem sorted_lt_dedupByTs {l : List TimeSeriesPoint}
    (h : List.Sorted tsLe l) : List.Sorted tsLt (dedupByTs l) := by
  induction l using dedupByTs.induct with
  | case1 => simp [dedupByTs]
  | case2 a => simp [dedupByTs, List.Sorted]
  | case3 a b rest heq ih =>
    rw [dedupByTs, if_pos heq]
    rw [List.sorted_cons] at h
    refine ih ?_
    rw [List.sorted_cons]
    exact ⟨fun y hy => h.1 y (List.mem_cons_of_mem b hy),
           (List.sorted_cons.mp h.2).2⟩
  | case4 a b rest heq ih =>
    rw [dedupByTs, if_neg heq]
    rw [List.sorted_cons] at h
    have hsorted := ih h.2
    rw [List.sorted_cons]
    refine ⟨?_, hsorted⟩
    intro y hy
    have hyl : y ∈ b :: rest := mem_of_mem_dedupByTs hy
    have hle : a.timestamp ≤ y.timestamp := h.1 y hyl
    rcases List.mem_cons.mp hyl with rfl | hyr
    · exact lt_of_le_of_ne hle heq
    · have hab : a.timestamp ≤ b.timestamp := h.1 b (List.mem_cons_self b rest)
      have halt : a.timestamp < b.timestamp := lt_of_le_of_ne hab heq
      exact lt_of_lt_of_le halt ((List.sorted_cons.mp h.2).1 y hyr)

theorem dedupByTs_ne_nil {l : List TimeSeriesPoint} (h : l ≠ []) :
    dedupByTs l ≠ [] := by
  induction l using dedupByTs.induct with
  | case1 => exact absurd rfl h
  | case2 a => simp [dedupByTs]
  | case3 a b rest heq ih =>
    rw [dedupByTs, if_pos heq]
    exact ih (by simp)
  | case4 a b rest heq ih =>
    rw [dedupByTs, if_neg heq]
    simp

theorem sortByTs_perm (l : List TimeSeriesPoint) : (sortByTs l).Perm l :=
  List.perm_insertionSort tsLe l

theorem sortByTs_sorted (l : List TimeSeriesPoint) :
    List.Sorted tsLe (sortByTs l) :=
  List.sorted_insertionSort tsLe l

theorem sortByTs_eq_self {l : List TimeSeriesPoint}
    (h : List.Sorted tsLe l) : sortByTs l = l :=
  List.Sorted.insertionSort_eq h

theorem sorted_le_of_lt {l : List TimeSeriesPoint}
    (h : List.Sorted tsLt l) : List.Sorted tsLe l :=
  h.imp (fun hab => le_of_lt hab)

/-! ## Lemmas about the range extraction -/

theorem dropWhile_lt_eq_filter {pts : List TimeSeriesPoint} {a : Int}
    (h : List.Sorted tsLe pts) :
    pts.dropWhile (fun p => decide (p.timestamp < a)) =
      pts.filter (fun p => decide (a ≤ p.timestamp)) := by
  induction pts with
  | nil => rfl
  | cons q rest ih =>
    rw [List.sorted_cons] at h
    by_cases hq : q.timestamp < a
    · rw [List.dropWhile_cons_of_pos (by simpa using hq),
          List.filter_cons_of_neg (by simpa using not_le_of_lt hq)]
      exact ih h.2
    · have hqa : a ≤ q.timestamp := le_of_not_lt hq
      rw [List.dropWhile_cons_of_neg (by simpa using hq),
          List.filter_cons_of_pos (by simpa using hqa)]
      have : rest.filter (fun p => decide (a ≤ p.timestamp)) = rest := by
        apply List.filter_eq_self.mpr
        intro p hp
        simpa using le_trans hqa (h.1 p hp)
      rw [this]

theorem takeWhile_le_eq_filter {pts : List TimeSeriesPoint} {b : Int}
    (h : List.Sorted tsLe pts) :
    pts.takeWhile (fun p => decide (p.timestamp ≤ b)) =
      pts.filter (fun p => decide (p.timestamp ≤ b)) := by
  induction pts with
  | nil => rfl
  | cons q rest ih =>
    rw [List.sorted_cons] at h
    by_cases hq : q.timestamp ≤ b
    · rw [List.takeWhile_cons_of_pos (by simpa using hq),
          List.filter_cons_of_pos (by simpa using hq)]
      rw [ih h.2]
    · rw [List.takeWhile_cons_of_neg (by simpa using hq),
          List.filter_cons_of_neg (by simpa using hq)]
      symm
      apply List.filter_eq_nil_iff.mpr
      intro p hp
      have : q.timestamp ≤ p.timestamp := h.1 p hp
      simpa using not_le_of_lt (lt_of_lt_of_le (lt_of_not_le hq) this)

theorem rangeOfList_eq_filter {pts : List TimeSeriesPoint} {a b : Int}
    (h : List.Sorted tsLe pts) :
    rangeOfList pts a b =
      pts.filter (fun p => decide (a ≤ p.timestamp) && decide (p.timestamp ≤ b)) := by
  unfold rangeOfList
  rw [dropWhile_lt_eq_filter h]
  have hsorted : List.Sorted tsLe (pts.filter (fun p => decide (a ≤ p.timestamp))) :=
    h.sublist (List.filter_sublist pts)
  rw [takeWhile_le_eq_filter hsorted, List.filter_filter]
  apply List.filter_congr
  intro p _
  simp [Bool.and_comm]

theorem rangeOfList_sublist (pts : List TimeSeriesPoint) (a b : Int) :
    (rangeOfList pts a b).Sublist pts :=
  (List.takeWhile_sublist _).trans (List.dropWhile_sublist _)

theorem rangeOfList_full {pts : List TimeSeriesPoint} {a b : Int}
    (h : ∀ p ∈ pts, a ≤ p.timestamp ∧ p.timestamp ≤ b) :
    rangeOfList pts a b = pts := by
  unfold rangeOfList
  have hdrop : pts.dropWhile (fun p => decide (p.timestamp < a)) = pts := by
    cases pts with
    | nil => rfl
    | cons q rest =>
      apply List.dropWhile_cons_of_neg
      simpa using not_lt_of_le (h q (List.mem_cons_self q rest)).1
  rw [hdrop]
  apply List.takeWhile_eq_self_iff.mpr
  intro p hp
  simpa using (h p hp).2

/-! ## Lemmas about the association-list maps -/

theorem assocFind_assocSet_self {β : Type} (l : List (String × β)) (k : String)
    (v : β) : assocFind (assocSet l k v) k = some v := by
  induction l with
  | nil => simp [assocSet, assocFind]
  | cons e rest ih =>
    by_cases hk : e.1 = k
    · simp [assocSet, hk, assocFind]
    · simpa [assocSet, hk, assocFind] using ih

theorem assocFind_assocSet_ne {β : Type} (l : List (String × β))
    {k k' : String} (v : β) (h : k' ≠ k) :
    assocFind (assocSet l k v) k' = assocFind l k' := by
  have hkk : ¬ k = k' := Ne.symm h
  induction l with
  | nil => simp [assocSet, assocFind, hkk]
  | cons e rest ih =>
    obtain ⟨ek, ev⟩ := e
    by_cases hk : ek = k
    · subst hk
      simp [assocSet, assocFind, hkk, Ne.symm hkk]
    · by_cases hk' : ek = k'
      · simp [assocSet, hk, assocFind, hk', hkk, h]
      · simp [assocSet, hk, assocFind, hk', ih]

theorem mem_assocSet {β : Type} {l : List (String × β)} {k : String} {v : β}
    {e : String × β} (h : e ∈ assocSet l k v) : e = (k, v) ∨ e ∈ l := by
  induction l with
  | nil => simpa [assocSet] using h
  | cons e' rest ih =>
    obtain ⟨ek, ev⟩ := e'
    by_cases hk : ek = k
    · rw [assocSet] at h
      rcases List.mem_cons.mp (by simpa [hk] using h) with rfl | h
      · exact Or.inl rfl
      · exact Or.inr (List.mem_cons_of_mem _ h)
    · rw [assocSet] at h
      rcases List.mem_cons.mp (by simpa [hk] using h) with rfl | h
      · exact Or.inr (List.mem_cons_self _ _)
      · rcases ih h with h | h
        · exact Or.inl h
        · exact Or.inr (List.mem_cons_of_mem _ h)

theorem assocFind_eq_none {β : Type} {l : List (String × β)} {k : String} :
    assocFind l k = none ↔ k ∉ l.map Prod.fst := by
  induction l with
  | nil => simp [assocFind]
  | cons e rest ih =>
    obtain ⟨ek, ev⟩ := e
    by_cases hk : ek = k
    · simp [assocFind, hk]
    · simp [assocFind, hk, ih, Ne.symm hk]

theorem assocFind_of_nodup {β : Type} {l : List (String × β)}
    (hnd : (l.map Prod.fst).Nodup) {e : String × β} (he : e ∈ l) :
    assocFind l e.1 = some e.2 := by
  induction l with
  | nil => simp at he
  | cons e' rest ih =>
    rw [List.map_cons, List.nodup_cons] at hnd
    rcases List.mem_cons.mp he with rfl | he
    · simp [assocFind]
    · have hne : e'.1 ≠ e.1 := by
        intro hcontra
        exact hnd.1 (hcontra ▸ List.mem_map_of_mem Prod.fst he)
      simp only [assocFind, if_neg hne]
      exact ih hnd.2 he

/-! ## Lemmas about grouping -/

theorem mem_firstOccs {s : String} {l : List String} :
    s ∈ firstOccs l ↔ s ∈ l := by
  induction l using firstOccs.induct with
  | case1 => simp [firstOccs]
  | case2 x rest ih =>
    rw [firstOccs]
    by_cases hs : s = x
    · simp [hs]
    · simp only [List.mem_cons, ih, List.mem_filter]
      constructor
      · rintro (rfl | ⟨h, _⟩)
        · exact Or.inl rfl
        · exact Or.inr h
      · rintro (rfl | h)
        · exact Or.inl rfl
        · exact Or.inr ⟨h, by simpa using hs⟩

theorem nodup_firstOccs (l : List String) : (firstOccs l).Nodup := by
  induction l using firstOccs.induct with
  | case1 => simp [firstOccs]
  | case2 x rest ih =>
    rw [firstOccs, List.nodup_cons]
    refine ⟨?_, ih⟩
    intro hx
    have := mem_firstOccs.mp hx
    simp at this

theorem map_fst_pairing {β : Type} (f : String → β) (l : List String) :
    (l.map (fun s => (s, f s))).map Prod.fst = l := by
  induction l with
  | nil => rfl
  | cons x rest ih => simp [ih]

theorem groupBySymbol_keys (ps : List TimeSeriesPoint) :
    (groupBySymbol ps).map Prod.fst = firstOccs (ps.map (·.symbol)) := by
  unfold groupBySymbol
  exact map_fst_pairing _ _

theorem groupBySymbol_keys_nodup (ps : List TimeSeriesPoint) :
    ((groupBySymbol ps).map Prod.fst).Nodup := by
  rw [groupBySymbol_keys]
  exact nodup_firstOccs _

theorem mem_groupBySymbol {ps : List TimeSeriesPoint} {s : String}
    {g2 : List TimeSeriesPoint} (hg : (s, g2) ∈ groupBySymbol ps) :
    g2 = ps.filter (fun p => decide (p.symbol = s)) ∧ g2 ≠ [] := by
  unfold groupBySymbol at hg
  rcases List.mem_map.mp hg with ⟨s', hs', heq⟩
  rcases Prod.mk.injEq .. ▸ heq with h
  obtain ⟨rfl, rfl⟩ : s' = s ∧ g2 = ps.filter (fun p => decide (p.symbol = s')) := by
    have h1 := congrArg Prod.fst heq
    have h2 := congrArg Prod.snd heq
    simp at h1 h2
    exact ⟨h1, by rw [← h2]⟩
  refine ⟨rfl, ?_⟩
  have hmem : s' ∈ ps.map (·.symbol) := mem_firstOccs.mp hs'
  rcases List.mem_map.mp hmem with ⟨p, hp, hps⟩
  intro hnil
  have hpin : p ∈ ps.filter (fun q => decide (q.symbol = s')) :=
    List.mem_filter.mpr ⟨hp, by simp [hps]⟩
  rw [hnil] at hpin
  simp at hpin

/-! ## Further association-list facts -/

theorem assocFind_mem {β : Type} {l : List (String × β)} {k : String} {v : β}
    (h : assocFind l k = some v) : (k, v) ∈ l := by
  induction l with
  | nil => simp [assocFind] at h
  | cons e rest ih =>
    obtain ⟨ek, ev⟩ := e
    by_cases hk : ek = k
    · subst hk
      simp [assocFind] at h
      simp [h]
    · rw [assocFind, if_neg hk] at h
      exact List.mem_cons_of_mem _ (ih h)

theorem assocSet_append_of_none {β : Type} {l : List (String × β)} {k : String}
    (v : β) (h : assocFind l k = none) : assocSet l k v = l ++ [(k, v)] := by
  induction l with
  | nil => simp [assocSet]
  | cons e rest ih =>
    obtain ⟨ek, ev⟩ := e
    rw [assocFind] at h
    by_cases hk : ek = k
    · rw [if_pos hk] at h
      exact absurd h (by simp)
    · rw [if_neg hk] at h
      rw [assocSet, if_neg hk, ih h]
      simp

theorem assocFind_append_of_none {β : Type} {l1 l2 : List (String × β)}
    {k : String} (h : assocFind l1 k = none) :
    assocFind (l1 ++ l2) k = assocFind l2 k := by
  induction l1 with
  | nil => simp [assocFind]
  | cons e rest ih =>
    obtain ⟨ek, ev⟩ := e
    rw [assocFind] at h
    by_cases hk : ek = k
    · rw [if_pos hk] at h
      exact absurd h (by simp)
    · rw [if_neg hk] at h
      rw [List.cons_append, assocFind, if_neg hk]
      exact ih h

/-! ## The sorted-insert primitive -/

theorem insertPoint_eq_none_iff {p : TimeSeriesPoint} {l : List TimeSeriesPoint}
    (hs : List.Sorted tsLe l) :
    insertPoint p l = none ↔ p.timestamp ∈ l.map TimeSeriesPoint.timestamp := by
  induction l with
  | nil => simp [insertPoint]
  | cons q rest ih =>
    rw [List.sorted_cons] at hs
    by_cases hlt : p.timestamp < q.timestamp
    · rw [insertPoint, if_pos hlt]
      simp only [List.map_cons, List.mem_cons]
      constructor
      · intro h
        exact absurd h (by simp)
      · rintro (h | h)
        · exact absurd h (ne_of_lt hlt)
        · rcases List.mem_map.mp h with ⟨y, hy, hyeq⟩
          rw [← hyeq] at hlt
          exact absurd (hs.1 y hy) (not_le_of_lt hlt)
    · by_cases heq : p.timestamp = q.timestamp
      · rw [insertPoint, if_neg hlt, if_pos heq]
        simp [heq]
      · rw [insertPoint, if_neg hlt, if_neg heq]
        simp only [Option.map_eq_none', List.map_cons, List.mem_cons]
        rw [ih hs.2]
        constructor
        · exact Or.inr
        · rintro (h | h)
          · exact absurd h heq
          · exact h

theorem insertPoint_spec {p : TimeSeriesPoint} {l l' : List TimeSeriesPoint}
    (hs : List.Sorted tsLt l) (h : insertPoint p l = some l') :
    List.Sorted tsLt l' ∧ (∀ q, q ∈ l' ↔ q = p ∨ q ∈ l) := by
  induction l generalizing l' with
  | nil =>
    rw [insertPoint] at h
    cases h
    simp [List.Sorted]
  | cons q rest ih =>
    rw [List.sorted_cons] at hs
    by_cases hlt : p.timestamp < q.timestamp
    · rw [insertPoint, if_pos hlt] at h
      cases h
      constructor
      · rw [List.sorted_cons]
        refine ⟨?_, List.sorted_cons.mpr hs⟩
        intro y hy
        rcases List.mem_cons.mp hy with rfl | hy
        · exact hlt
        · exact lt_trans hlt (hs.1 y hy)
      · intro x
        simp only [List.mem_cons]
    · by_cases heq : p.timestamp = q.timestamp
      · rw [insertPoint, if_neg hlt, if_pos heq] at h
        cases h
      · rw [insertPoint, if_neg hlt, if_neg heq] at h
        rcases Option.map_eq_some'.mp h with ⟨l'', h'', rfl⟩
        obtain ⟨hsorted'', hmem''⟩ := ih hs.2 h''
        have hqp : q.timestamp < p.timestamp :=
          lt_of_le_of_ne (le_of_not_lt hlt) (fun hcontra => heq hcontra.symm)
        constructor
        · rw [List.sorted_cons]
          refine ⟨?_, hsorted''⟩
          intro y hy
          rcases (hmem'' y).mp hy with rfl | hy
          · exact hqp
          · exact hs.1 y hy
        · intro x
          simp only [List.mem_cons, hmem'' x]
          tauto

/-! ## Equation lemmas for the branching operations -/

theorem memInsert_of_absent {m : MemoryLayer} {p : TimeSeriesPoint}
    (h : assocFind m.data p.symbol = none) :
    memInsert m p = (true, ⟨m.data ++ [(p.symbol, [p])], m.totalPoints + 1⟩) := by
  unfold memInsert
  rw [h]

theorem memInsert_of_dup {m : MemoryLayer} {p : TimeSeriesPoint}
    {pts : List TimeSeriesPoint} (h : assocFind m.data p.symbol = some pts)
    (hins : insertPoint p pts = none) : memInsert m p = (false, m) := by
  simp only [memInsert, h, hins]

theorem memInsert_of_fresh {m : MemoryLayer} {p : TimeSeriesPoint}
    {pts l' : List TimeSeriesPoint} (h : assocFind m.data p.symbol = some pts)
    (hins : insertPoint p pts = some l') :
    memInsert m p = (true, ⟨assocSet m.data p.symbol l', m.totalPoints + 1⟩) := by
  simp only [memInsert, h, hins]

/-! ## Memory-layer invariant preservation -/

theorem memWF_init : memWF memInit := by
  intro e he
  simp [memInit] at he

theorem memWF_insert {m : MemoryLayer} (hwf : memWF m) (p : TimeSeriesPoint) :
    memWF (memInsert m p).2 := by
  cases hfind : assocFind m.data p.symbol with
  | none =>
    rw [memInsert_of_absent hfind]
    intro e he
    rcases List.mem_append.mp he with he | he
    · exact hwf e he
    · rcases List.mem_singleton.mp he with rfl
      simp [List.Sorted]
  | some pts =>
    cases hins : insertPoint p pts with
    | none =>
      rw [memInsert_of_dup hfind hins]
      exact hwf
    | some l' =>
      rw [memInsert_of_fresh hfind hins]
      intro e he
      rcases mem_assocSet he with rfl | he
      · exact (insertPoint_spec (hwf _ (assocFind_mem hfind)) hins).1
      · exact hwf e he

theorem memWF_mergeStep {m : MemoryLayer} (hwf : memWF m)
    (g : String × List TimeSeriesPoint) : memWF (memMergeStep m g) := by
  unfold memMergeStep
  intro e he
  rcases mem_assocSet he with rfl | he
  · have hold : List.Sorted tsLe ((assocFind m.data g.1).getD []) := by
      cases hfind : assocFind m.data g.1 with
      | none => simp [List.Sorted]
      | some pts =>
        simpa using sorted_le_of_lt (hwf _ (assocFind_mem hfind))
    exact sorted_lt_dedupByTs (sorted_mergeByTs hold (sortByTs_sorted g.2))
  · exact hwf e he

theorem memWF_insertBatchAux (gs : List (String × List TimeSeriesPoint)) :
    ∀ m : MemoryLayer, memWF m → memWF (gs.foldl memMergeStep m) := by
  induction gs with
  | nil => intro m hm; exact hm
  | cons g rest ih =>
    intro m hm
    exact ih _ (memWF_mergeStep hm g)

theorem memWF_insertBatch {m : MemoryLayer} (hwf : memWF m)
    (ps : List TimeSeriesPoint) : memWF (memInsertBatch m ps) :=
  memWF_insertBatchAux (groupBySymbol ps) m hwf

theorem memWF_run (ops : List MemOp) : memWF (memRun ops) := by
  unfold memRun
  have haux : ∀ (l : List MemOp) (m : MemoryLayer), memWF m →
      memWF (l.foldl memExec m) := by
    intro l
    induction l with
    | nil => intro m hm; exact hm
    | cons op rest ih =>
      intro m hm
      apply ih
      cases op with
      | ins p => exact memWF_insert hm p
      | insBatch ps => exact memWF_insertBatch hm ps
  exact haux ops memInit memWF_init

theorem memGetRange_sorted {m : MemoryLayer} (hwf : memWF m) (s : String)
    (a b : Int) : List.Sorted tsLt (memGetRange m s a b) := by
  unfold memGetRange
  cases hfind : assocFind m.data s with
  | none => simp [List.Sorted]
  | some pts =>
    exact (hwf _ (assocFind_mem hfind)).sublist (rangeOfList_sublist pts a b)

/-! ## The flush collection -/

theorem memGetRange_congr_tail {k : String} {pts : List TimeSeriesPoint}
    {rest : List (String × List TimeSeriesPoint)} {c c' : Nat} {s : String}
    (hne : ¬ k = s) (a b : Int) :
    memGetRange ⟨(k, pts) :: rest, c⟩ s a b = memGetRange ⟨rest, c'⟩ s a b := by
  unfold memGetRange
  simp only [assocFind, if_neg hne]

theorem collectPoints_eq_flatten :
    ∀ (l : List (String × List TimeSeriesPoint)) (c : Nat),
      (l.map Prod.fst).Nodup →
      (∀ e ∈ l, ∀ p ∈ e.2, tMIN ≤ p.timestamp ∧ p.timestamp ≤ tMAX) →
      collectPoints ⟨l, c⟩ = (l.map Prod.snd).flatten := by
  intro l
  induction l with
  | nil => intro c _ _; rfl
  | cons e rest ih =>
    intro c hnd hbound
    obtain ⟨k, pts⟩ := e
    rw [List.map_cons, List.nodup_cons] at hnd
    unfold collectPoints memSymbols
    simp only [List.map_cons, List.flatMap_cons]
    have hhead : memGetRange ⟨(k, pts) :: rest, c⟩ k tMIN tMAX = pts := by
      unfold memGetRange
      simp only [assocFind, if_pos rfl]
      exact rangeOfList_full (hbound (k, pts) (List.mem_cons_self _ _))
    rw [hhead]
    have htail : (rest.map Prod.fst).flatMap
        (fun s => memGetRange ⟨(k, pts) :: rest, c⟩ s tMIN tMAX)
        = (rest.map Prod.fst).flatMap (fun s => memGetRange ⟨rest, c⟩ s tMIN tMAX) := by
      apply List.flatMap_congr
      intro s hs
      have hne : ¬ k = s := by
        intro hcontra
        exact hnd.1 (hcontra ▸ hs)
      exact memGetRange_congr_tail hne tMIN tMAX
    rw [htail]
    have := ih c hnd.2 (fun e he p hp => hbound e (List.mem_cons_of_mem _ he) p hp)
    unfold collectPoints memSymbols at this
    rw [this]
    simp

theorem engineFlush_of_collect_nil {st : Engine} (ok : Bool)
    (h : collectPoints st.memory = []) : engineFlush st ok = (true, st) := by
  unfold engineFlush
  rw [h]
  rfl

theorem engineFlush_true_of_collect_ne_nil {st : Engine}
    (h : collectPoints st.memory ≠ []) :
    engineFlush st true =
      (true, { st with memory := clearCache st.memory,
                       disk := diskWriteBatch st.disk (collectPoints st.memory) }) := by
  unfold engineFlush
  rw [if_neg (by simpa [List.isEmpty_iff] using h)]
  rfl

theorem engineFlush_false_of_collect_ne_nil {st : Engine}
    (h : collectPoints st.memory ≠ []) : engineFlush st false = (false, st) := by
  unfold engineFlush
  rw [if_neg (by simpa [List.isEmpty_iff] using h)]
  rfl

theorem flush_of_empty {st : Engine} (ok : Bool)
    (h : ∀ e ∈ st.memory.data, e.2 = []) : engineFlush st ok = (true, st) := by
  apply engineFlush_of_collect_nil
  unfold collectPoints memSymbols
  apply List.flatMap_eq_nil_iff.mpr
  intro s hs
  unfold memGetRange
  cases hfind : assocFind st.memory.data s with
  | none => rfl
  | some pts =>
    have := h _ (assocFind_mem hfind)
    simp only at this
    rw [this]
    rfl

/-! ## Disk range-query decomposition -/

theorem flatten_relevant_filter (a b : Int) :
    ∀ segs : List (Nat × Segment), segBoundsOK segs →
    ((segs.filter (fun kv => decide (kv.2.startTime ≤ b) && decide (a ≤ kv.2.endTime))).map
        (fun kv => kv.2.points.filter
          (fun p => decide (a ≤ p.timestamp) && decide (p.timestamp < b)))).flatten =
      (segs.map (fun kv => kv.2.points.filter
          (fun p => decide (a ≤ p.timestamp) && decide (p.timestamp < b)))).flatten := by
  intro segs
  induction segs with
  | nil => intro _; rfl
  | cons kv rest ih =>
    intro hbounds
    have htail := ih (fun e he p hp => hbounds e (List.mem_cons_of_mem _ he) p hp)
    by_cases hrel : kv.2.startTime ≤ b ∧ a ≤ kv.2.endTime
    · rw [List.filter_cons_of_pos (by simp [hrel.1, hrel.2])]
      simp only [List.map_cons, List.flatten_cons]
      rw [htail]
    · rw [List.filter_cons_of_neg (by simpa using fun h1 h2 => hrel ⟨h1, h2⟩)]
      simp only [List.map_cons, List.flatten_cons]
      have hnilf : kv.2.points.filter
          (fun p => decide (a ≤ p.timestamp) && decide (p.timestamp < b)) = [] := by
        apply List.filter_eq_nil_iff.mpr
        intro p hp
        simp only [Bool.and_eq_true, decide_eq_true_eq, not_and]
        intro hap hpb
        obtain ⟨hsp, hpe⟩ := hbounds kv (List.mem_cons_self _ _) p hp
        exact hrel ⟨le_of_lt (lt_of_le_of_lt hsp hpb), le_trans hap hpe⟩
      rw [htail, hnilf]
      simp

/-! ## Claim C6 -/

/-- C6: for every symbol and every pair `(start, end)`, the segment store's
`read_range` returns exactly the stored points of that symbol with
`start <= timestamp < end` (upper bound exclusive), drawn from the segments
whose recorded `[start_time, end_time]` meets the query interval, sorted by
timestamp. -/
theorem c6_disk_read_range_exact (d : DiskLayer) (s : String) (a b : Int)
    (segs : List (Nat × Segment)) (hfind : assocFind d.metadata s = some segs)
    (hbounds : segBoundsOK segs) :
    List.Sorted tsLe (diskReadRange d s a b) ∧
    (diskReadRange d s a b).Perm
      (((segs.map (fun kv => kv.2.points)).flatten).filter
        (fun p => decide (a ≤ p.timestamp) && decide (p.timestamp < b))) := by
  simp only [diskReadRange, hfind]
  constructor
  · exact sortByTs_sorted _
  · refine (sortByTs_perm _).trans ?_
    rw [flatten_relevant_filter a b segs hbounds, List.filter_flatten,
        List.map_map]
    exact List.Perm.refl _

/-- Witness for C6 on a two-segment index. -/
theorem c6_disk_read_range_exact_witness :
    List.Sorted tsLe (diskReadRange exDisk "A" 2 9) ∧
    (diskReadRange exDisk "A" 2 9).Perm
      ((([(0, (⟨1, 3, [⟨1, 10, "A"⟩, ⟨3, 30, "A"⟩]⟩ : Segment)),
          (1, (⟨8, 9, [⟨8, 80, "A"⟩, ⟨9, 90, "A"⟩]⟩ : Segment))].map
            (fun kv => kv.2.points)).flatten).filter
        (fun p => decide ((2 : Int) ≤ p.timestamp) && decide (p.timestamp < 9))) :=
  c6_disk_read_range_exact exDisk "A" 2 9 _ rfl
    (by unfold segBoundsOK; decide)

/-! ## Claim C7 -/

/-- C7: for every symbol and every `(start, end)` with `start <= end`, the
memory buffer's `get_range` returns exactly the buffered points of that
symbol with `start <= timestamp <= end` (upper bound inclusive). -/
theorem c7_memory_range_closure (m : MemoryLayer) (s : String) (a b : Int)
    (pts : List TimeSeriesPoint) (hfind : assocFind m.data s = some pts)
    (hsorted : List.Sorted tsLt pts) (_hab : a ≤ b) :
    memGetRange m s a b =
      pts.filter (fun p => decide (a ≤ p.timestamp) && decide (p.timestamp ≤ b)) := by
  simp only [memGetRange, hfind]
  exact rangeOfList_eq_filter (sorted_le_of_lt hsorted)

/-- Witness for C7 on a two-point buffer. -/
theorem c7_memory_range_closure_witness :
    memGetRange exEngine.memory "A" 2 9 =
      ([⟨1, 10, "A"⟩, ⟨4, 40, "A"⟩] : List TimeSeriesPoint).filter
        (fun p => decide ((2 : Int) ≤ p.timestamp) && decide (p.timestamp ≤ 9)) :=
  c7_memory_range_closure exEngine.memory "A" 2 9 _ rfl (by decide) (by decide)

/-! ## Claim C10 -/

/-- C10: for every engine whose memory buffer holds no points, `flush()`
returns `true` and the state — in particular the segment store — is
unchanged. -/
theorem c10_flush_empty_noop (st : Engine) (ok : Bool)
    (h : ∀ e ∈ st.memory.data, e.2 = []) : engineFlush st ok = (true, st) :=
  flush_of_empty ok h

/-- Witness for C10 on a drained engine, with the disk write failing. -/
theorem c10_flush_empty_noop_witness :
    engineFlush drainedEngine false = (true, drainedEngine) :=
  c10_flush_empty_noop drainedEngine false (by decide)

/-! ## Claim C3 -/

/-- C3: `flush()` clears the memory buffer exactly when the disk write of
the collected points succeeds: on success it returns `true` and every
per-symbol vector is empty afterwards; on failure it returns `false` (when
there was anything to write) and the memory layer is exactly as before. -/
theorem c3_flush_clears_iff_success (st : Engine) (ok : Bool)
    (hnd : (st.memory.data.map Prod.fst).Nodup)
    (hbound : ∀ e ∈ st.memory.data, ∀ p ∈ e.2,
      tMIN ≤ p.timestamp ∧ p.timestamp ≤ tMAX) :
    (ok = true → (engineFlush st ok).1 = true ∧
      ∀ e ∈ (engineFlush st ok).2.memory.data, e.2 = []) ∧
    (ok = false → (engineFlush st ok).2.memory = st.memory ∧
      ((∃ e ∈ st.memory.data, e.2 ≠ []) → (engineFlush st ok).1 = false)) := by
  have hcol : collectPoints st.memory = (st.memory.data.map Prod.snd).flatten :=
    collectPoints_eq_flatten st.memory.data st.memory.totalPoints hnd hbound
  by_cases hemp : collectPoints st.memory = []
  · have hflush := engineFlush_of_collect_nil ok hemp
    have hall : ∀ e ∈ st.memory.data, e.2 = [] := by
      intro e he
      rw [hcol] at hemp
      exact (List.flatten_eq_nil_iff.mp hemp) e.2 (List.mem_map_of_mem Prod.snd he)
    constructor
    · intro _
      rw [hflush]
      exact ⟨rfl, hall⟩
    · intro _
      rw [hflush]
      refine ⟨rfl, ?_⟩
      rintro ⟨e, he, hne⟩
      exact absurd (hall e he) hne
  · cases ok with
    | true =>
      have hflush := engineFlush_true_of_collect_ne_nil hemp
      constructor
      · intro _
        rw [hflush]
        refine ⟨rfl, ?_⟩
        intro e he
        simp only [clearCache] at he
        rcases List.mem_map.mp he with ⟨e', _, rfl⟩
        rfl
      · intro h
        simp at h
    | false =>
      have hflush := engineFlush_false_of_collect_ne_nil hemp
      constructor
      · intro h
        simp at h
      · intro _
        rw [hflush]
        exact ⟨rfl, fun _ => rfl⟩

/-- Witness for C3 on a two-point buffer, with the disk write failing. -/
theorem c3_flush_clears_iff_success_witness :
    ((false = true → (engineFlush exEngine false).1 = true ∧
      ∀ e ∈ (engineFlush exEngine false).2.memory.data, e.2 = []) ∧
    (false = false → (engineFlush exEngine false).2.memory = exEngine.memory ∧
      ((∃ e ∈ exEngine.memory.data, e.2 ≠ []) →
        (engineFlush exEngine false).1 = false))) :=
  c3_flush_clears_iff_success exEngine false (by decide) (by decide)

/-! ## Claim C4 -/

/-- C4: after any finite sequence of `insert` and `insert_batch` calls on
the memory buffer, `get_range(symbol, MIN, MAX)` is strictly increasing in
timestamp. -/
theorem c4_memory_strictly_increasing (ops : List MemOp) (s : String) :
    List.Pairwise (· < ·)
      ((memGetRange (memRun ops) s tMIN tMAX).map TimeSeriesPoint.timestamp) := by
  rw [List.pairwise_map]
  exact memGetRange_sorted (memWF_run ops) s tMIN tMAX

/-! ## Claim C5 -/

/-- C5: a point whose timestamp already exists for its symbol makes `insert`
return `false` with the buffer untouched, and makes the engine's
`write_point` return `false` with the whole engine state untouched (so the
total counter is not bumped and no flush runs); a point with a fresh
timestamp is inserted in sorted position with `true`. -/
theorem c5_duplicate_insert_rejected (st : Engine) (p : TimeSeriesPoint)
    (ok : Bool)
    (hsorted : List.Sorted tsLt ((assocFind st.memory.data p.symbol).getD [])) :
    (p.timestamp ∈ ((assocFind st.memory.data p.symbol).getD []).map
        TimeSeriesPoint.timestamp →
      memInsert st.memory p = (false, st.memory) ∧
      engineWritePoint st p ok = (false, st)) ∧
    (p.timestamp ∉ ((assocFind st.memory.data p.symbol).getD []).map
        TimeSeriesPoint.timestamp →
      (memInsert st.memory p).1 = true ∧
      ∃ l', assocFind (memInsert st.memory p).2.data p.symbol = some l' ∧
        List.Sorted tsLt l' ∧
        (∀ q, q ∈ l' ↔ q = p ∨
          q ∈ (assocFind st.memory.data p.symbol).getD [])) := by
  cases hfind : assocFind st.memory.data p.symbol with
  | none =>
    constructor
    · intro hmem
      simp at hmem
    · intro _
      rw [memInsert_of_absent hfind]
      refine ⟨rfl, [p], ?_, ?_, ?_⟩
      · show assocFind (st.memory.data ++ [(p.symbol, [p])]) p.symbol = some [p]
        rw [assocFind_append_of_none hfind]
        simp [assocFind]
      · simp [List.Sorted]
      · intro q
        simp
  | some pts =>
    rw [hfind] at hsorted
    simp only [Option.getD_some] at hsorted ⊢
    constructor
    · intro hmem
      have hins : insertPoint p pts = none :=
        (insertPoint_eq_none_iff (sorted_le_of_lt hsorted)).mpr hmem
      have hmemins := memInsert_of_dup hfind hins
      refine ⟨hmemins, ?_⟩
      unfold engineWritePoint
      rw [hmemins]
    · intro hmem
      cases hins : insertPoint p pts with
      | none =>
        exact absurd ((insertPoint_eq_none_iff (sorted_le_of_lt hsorted)).mp hins)
          hmem
      | some l' =>
        rw [memInsert_of_fresh hfind hins]
        obtain ⟨hsorted', hmem'⟩ := insertPoint_spec hsorted hins
        exact ⟨rfl, l', assocFind_assocSet_self _ _ _, hsorted', hmem'⟩

/-- Witness for C5: a duplicate timestamp (4) for symbol "A". -/
theorem c5_duplicate_insert_rejected_witness :
    (((4 : Int) ∈ ((assocFind exEngine.memory.data "A").getD []).map
        TimeSeriesPoint.timestamp →
      memInsert exEngine.memory ⟨4, 99, "A"⟩ = (false, exEngine.memory) ∧
      engineWritePoint exEngine ⟨4, 99, "A"⟩ true = (false, exEngine)) ∧
    ((4 : Int) ∉ ((assocFind exEngine.memory.data "A").getD []).map
        TimeSeriesPoint.timestamp →
      (memInsert exEngine.memory ⟨4, 99, "A"⟩).1 = true ∧
      ∃ l', assocFind (memInsert exEngine.memory ⟨4, 99, "A"⟩).2.data "A" = some l' ∧
        List.Sorted tsLt l' ∧
        (∀ q, q ∈ l' ↔ q = ⟨4, 99, "A"⟩ ∨
          q ∈ (assocFind exEngine.memory.data "A").getD []))) :=
  c5_duplicate_insert_rejected exEngine ⟨4, 99, "A"⟩ true (by decide)

/-! ## Claim C9 -/

theorem engineFlush_counters (st : Engine) (ok : Bool) :
    (engineFlush st ok).2.cacheHits = st.cacheHits ∧
    (engineFlush st ok).2.cacheMisses = st.cacheMisses := by
  unfold engineFlush
  by_cases h : (collectPoints st.memory).isEmpty
  · rw [if_pos h]
    exact ⟨rfl, rfl⟩
  · rw [if_neg h]
    cases ok <;> exact ⟨rfl, rfl⟩

theorem engineWritePoint_counters (st : Engine) (p : TimeSeriesPoint) (ok : Bool) :
    (engineWritePoint st p ok).2.cacheHits = st.cacheHits ∧
    (engineWritePoint st p ok).2.cacheMisses = st.cacheMisses := by
  unfold engineWritePoint
  cases hins : memInsert st.memory p with
  | mk b m' =>
    cases b with
    | false => exact ⟨rfl, rfl⟩
    | true =>
      by_cases hth : st.maxMemoryPoints ≤ m'.totalPoints
      · simp only [if_pos hth]
        exact engineFlush_counters _ ok
      · simp only [if_neg hth]
        simp

theorem engineWriteBatch_counters (st : Engine) (ps : List TimeSeriesPoint)
    (ok : Bool) :
    (engineWriteBatch st ps ok).2.cacheHits = st.cacheHits ∧
    (engineWriteBatch st ps ok).2.cacheMisses = st.cacheMisses := by
  unfold engineWriteBatch
  by_cases hps : ps.isEmpty
  · rw [if_pos hps]
    exact ⟨rfl, rfl⟩
  · rw [if_neg hps]
    by_cases hth : st.maxMemoryPoints ≤ (memInsertBatch st.memory ps).totalPoints
    · simp only [if_pos hth]
      exact engineFlush_counters _ ok
    · simp only [if_neg hth]
      simp

theorem engineOptimize_counters (st : Engine) (ok : Bool) :
    (engineOptimize st ok).cacheHits = st.cacheHits ∧
    (engineOptimize st ok).cacheMisses = st.cacheMisses := by
  unfold engineOptimize
  exact engineFlush_counters st ok

theorem engExec_counters (st : Engine) (op : EngOp) :
    (engExec st op).cacheHits = st.cacheHits ∧
    (engExec st op).cacheMisses = st.cacheMisses := by
  cases op with
  | writePoint p ok => exact engineWritePoint_counters st p ok
  | writeBatch ps ok => exact engineWriteBatch_counters st ps ok
  | flushOp ok => exact engineFlush_counters st ok
  | readRange s a b => exact ⟨rfl, rfl⟩
  | getLatest s => exact ⟨rfl, rfl⟩
  | getSymbols => exact ⟨rfl, rfl⟩
  | optimize ok => exact engineOptimize_counters st ok
  | getStatsOp => exact ⟨rfl, rfl⟩

/-- C9: on every reachable engine state the cache counters are still zero —
no public operation ever increments them — so `get_stats()` always reports
`cache_hits = 0`, `cache_misses = 0` and `cache_hit_ratio = 0`. -/
theorem c9_cache_counters_zero (maxMemoryPoints : Nat) (ops : List EngOp) :
    (getStats (engRun maxMemoryPoints ops)).cacheHits = 0 ∧
    (getStats (engRun maxMemoryPoints ops)).cacheMisses = 0 ∧
    (getStats (engRun maxMemoryPoints ops)).cacheHitRatio = 0 := by
  have hzero : ∀ (l : List EngOp) (st : Engine),
      st.cacheHits = 0 → st.cacheMisses = 0 →
      (l.foldl engExec st).cacheHits = 0 ∧ (l.foldl engExec st).cacheMisses = 0 := by
    intro l
    induction l with
    | nil => intro st h1 h2; exact ⟨h1, h2⟩
    | cons op rest ih =>
      intro st h1 h2
      obtain ⟨hh, hm⟩ := engExec_counters st op
      exact ih _ (hh.trans h1) (hm.trans h2)
  obtain ⟨hh, hm⟩ := hzero ops (engineInit maxMemoryPoints) rfl rfl
  have hh' : (engRun maxMemoryPoints ops).cacheHits = 0 := hh
  have hm' : (engRun maxMemoryPoints ops).cacheMisses = 0 := hm
  refine ⟨hh', hm', ?_⟩
  show cacheHitRatio (engRun maxMemoryPoints ops) = 0
  unfold cacheHitRatio
  rw [hh', hm']
  simp

/-! ## Toward C1: the state after a batch insert into an empty engine -/

theorem map_fst_map_pair {β : Type} (f : String × List TimeSeriesPoint → β)
    (l : List (String × List TimeSeriesPoint)) :
    (l.map (fun e => (e.1, f e))).map Prod.fst = l.map Prod.fst := by
  induction l with
  | nil => rfl
  | cons e rest ih => simp [ih]

theorem mem_dedup_sort {p : TimeSeriesPoint} {l : List TimeSeriesPoint}
    (h : p ∈ dedupByTs (sortByTs l)) : p ∈ l :=
  (sortByTs_perm l).mem_iff.mp (mem_of_mem_dedupByTs h)

theorem dedup_sort_ne_nil {l : List TimeSeriesPoint} (h : l ≠ []) :
    dedupByTs (sortByTs l) ≠ [] := by
  apply dedupByTs_ne_nil
  intro hnil
  apply h
  have := (sortByTs_perm l).length_eq
  rw [hnil] at this
  exact List.length_eq_zero.mp this.symm

theorem ts_mem_sortByTs {t : Int} {l : List TimeSeriesPoint} :
    t ∈ (sortByTs l).map TimeSeriesPoint.timestamp ↔
      t ∈ l.map TimeSeriesPoint.timestamp :=
  ((sortByTs_perm l).map TimeSeriesPoint.timestamp).mem_iff

theorem memGetRange_of_all_nil {data : List (String × List TimeSeriesPoint)}
    {c : Nat} (h : ∀ e ∈ data, e.2 = []) (s : String) (a b : Int) :
    memGetRange ⟨data, c⟩ s a b = [] := by
  unfold memGetRange
  cases hfind : assocFind data s with
  | none => rfl
  | some pts =>
    have := h _ (assocFind_mem hfind)
    simp only at this
    rw [this]
    rfl

theorem foldl_mergeStep_fresh :
    ∀ (gs : List (String × List TimeSeriesPoint)) (m : MemoryLayer),
      ((gs.map Prod.fst).Nodup) →
      (∀ k ∈ gs.map Prod.fst, assocFind m.data k = none) →
      (gs.foldl memMergeStep m).data =
        m.data ++ gs.map (fun g => (g.1, dedupByTs (sortByTs g.2))) := by
  intro gs
  induction gs with
  | nil => intro m _ _; simp
  | cons g rest ih =>
    intro m hnd hfresh
    obtain ⟨k, gpts⟩ := g
    rw [List.map_cons, List.nodup_cons] at hnd
    have hfk : assocFind m.data k = none :=
      hfresh k (by simp)
    have hstep : (memMergeStep m (k, gpts)).data =
        m.data ++ [(k, dedupByTs (sortByTs gpts))] := by
      unfold memMergeStep
      simp only [hfk, Option.getD_none, mergeByTs_nil_left]
      exact assocSet_append_of_none _ hfk
    rw [List.foldl_cons]
    rw [ih (memMergeStep m (k, gpts)) hnd.2 ?_]
    · rw [hstep]
      simp
    · intro k' hk'
      rw [hstep]
      have hne : k ≠ k' := by
        intro hcontra
        exact hnd.1 (hcontra ▸ hk')
      rw [assocFind_append_of_none (hfresh k' (by simp [hk']))]
      simp [assocFind, hne]

theorem memInsertBatch_init (ps : List TimeSeriesPoint) :
    (memInsertBatch memInit ps).data =
      (groupBySymbol ps).map (fun g => (g.1, dedupByTs (sortByTs g.2))) := by
  unfold memInsertBatch
  rw [foldl_mergeStep_fresh (groupBySymbol ps) memInit
    (groupBySymbol_keys_nodup ps) (fun k _ => rfl)]
  rfl

/-! ## Toward C1: regrouping the flushed batch on the disk side -/

theorem firstOccs_append_const {s : String} {syms1 tail : List String}
    (h1 : syms1 ≠ []) (h2 : ∀ x ∈ syms1, x = s) :
    firstOccs (syms1 ++ tail) =
      s :: firstOccs (tail.filter (fun x => decide (¬ x = s))) := by
  cases syms1 with
  | nil => exact absurd rfl h1
  | cons a rest1 =>
    have ha : a = s := h2 a (by simp)
    subst ha
    rw [List.cons_append, firstOccs]
    congr 1
    rw [List.filter_append]
    have hrest : rest1.filter (fun x => decide (¬ x = a)) = [] := by
      apply List.filter_eq_nil_iff.mpr
      intro x hx
      simp [h2 x (by simp [hx])]
    rw [hrest]
    rfl

theorem symbol_mem_blocks {blocks : List (String × List TimeSeriesPoint)}
    (hprops : ∀ b ∈ blocks, b.2 ≠ [] ∧ ∀ q ∈ b.2, q.symbol = b.1)
    {x : String}
    (hx : x ∈ ((blocks.map Prod.snd).flatten).map (·.symbol)) :
    x ∈ blocks.map Prod.fst := by
  rcases List.mem_map.mp hx with ⟨q, hq, rfl⟩
  rcases List.mem_flatten.mp hq with ⟨l, hl, hql⟩
  rcases List.mem_map.mp hl with ⟨b, hb, rfl⟩
  rw [(hprops b hb).2 q hql]
  exact List.mem_map_of_mem Prod.fst hb

theorem firstOccs_blocks :
    ∀ blocks : List (String × List TimeSeriesPoint),
      ((blocks.map Prod.fst).Nodup) →
      (∀ b ∈ blocks, b.2 ≠ [] ∧ ∀ q ∈ b.2, q.symbol = b.1) →
      firstOccs (((blocks.map Prod.snd).flatten).map (·.symbol)) =
        blocks.map Prod.fst := by
  intro blocks
  induction blocks with
  | nil => intro _ _; simp [firstOccs]
  | cons b rest ih =>
    intro hnd hprops
    obtain ⟨k, D⟩ := b
    rw [List.map_cons, List.nodup_cons] at hnd
    obtain ⟨hDne, hDsym⟩ := hprops (k, D) (by simp)
    simp only [List.map_cons, List.flatten_cons, List.map_append]
    rw [firstOccs_append_const (by simpa using hDne)
      (by intro x hx; rcases List.mem_map.mp hx with ⟨q, hq, rfl⟩; exact hDsym q hq)]
    have hrest : (((rest.map Prod.snd).flatten).map (·.symbol)).filter
        (fun x => decide (¬ x = k)) = ((rest.map Prod.snd).flatten).map (·.symbol) := by
      apply List.filter_eq_self.mpr
      intro x hx
      have hxk : x ∈ rest.map Prod.fst :=
        symbol_mem_blocks (fun b hb => hprops b (List.mem_cons_of_mem _ hb)) hx
      have : ¬ x = k := by
        intro hcontra
        exact hnd.1 (hcontra ▸ hxk)
      simpa using this
    rw [hrest, ih hnd.2 (fun b hb => hprops b (List.mem_cons_of_mem _ hb))]

theorem filter_flatten_blocks :
    ∀ (blocks : List (String × List TimeSeriesPoint)) (s : String)
      (D : List TimeSeriesPoint),
      ((blocks.map Prod.fst).Nodup) →
      (∀ b ∈ blocks, b.2 ≠ [] ∧ ∀ q ∈ b.2, q.symbol = b.1) →
      (s, D) ∈ blocks →
      ((blocks.map Prod.snd).flatten).filter (fun p => decide (p.symbol = s)) = D := by
  intro blocks
  induction blocks with
  | nil => intro s D _ _ hmem; simp at hmem
  | cons b rest ih =>
    intro s D hnd hprops hmem
    obtain ⟨k, D'⟩ := b
    rw [List.map_cons, List.nodup_cons] at hnd
    simp only [List.map_cons, List.flatten_cons, List.filter_append]
    rcases List.mem_cons.mp hmem with heq | hmemr
    · have h1 : k = s := (congrArg Prod.fst heq).symm
      have h2 : D' = D := (congrArg Prod.snd heq).symm
      have hself : D'.filter (fun p => decide (p.symbol = s)) = D' := by
        apply List.filter_eq_self.mpr
        intro q hq
        have hqk := (hprops (k, D') (by simp)).2 q hq
        simp only at hqk
        simp [hqk, h1]
      have hnil : ((rest.map Prod.snd).flatten).filter
          (fun p => decide (p.symbol = s)) = [] := by
        apply List.filter_eq_nil_iff.mpr
        intro q hq
        rcases List.mem_flatten.mp hq with ⟨l, hl, hql⟩
        rcases List.mem_map.mp hl with ⟨b', hb', rfl⟩
        have hqs := (hprops b' (List.mem_cons_of_mem _ hb')).2 q hql
        have hbk : b'.1 ∈ rest.map Prod.fst := List.mem_map_of_mem Prod.fst hb'
        have : ¬ q.symbol = s := by
          rw [hqs]
          intro hcontra
          apply hnd.1
          rw [h1, ← hcontra]
          exact hbk
        simpa using this
      rw [hself, hnil, List.append_nil]
      exact h2
    · have hsk : s ∈ rest.map Prod.fst := by
        have : (s, D).1 ∈ rest.map Prod.fst := List.mem_map_of_mem Prod.fst hmemr
        simpa using this
      have hknes : ¬ k = s := by
        intro hcontra
        exact hnd.1 (hcontra ▸ hsk)
      have hnil : D'.filter (fun p => decide (p.symbol = s)) = [] := by
        apply List.filter_eq_nil_iff.mpr
        intro q hq
        have hqs := (hprops (k, D') (by simp)).2 q hq
        simp only at hqs
        rw [hqs]
        simpa using hknes
      rw [hnil, List.nil_append]
      exact ih s D hnd.2 (fun b hb => hprops b (List.mem_cons_of_mem _ hb)) hmemr

theorem groupBySymbol_flatten_blocks
    (blocks : List (String × List TimeSeriesPoint))
    (hnd : (blocks.map Prod.fst).Nodup)
    (hprops : ∀ b ∈ blocks, b.2 ≠ [] ∧ ∀ q ∈ b.2, q.symbol = b.1) :
    groupBySymbol ((blocks.map Prod.snd).flatten) = blocks := by
  unfold groupBySymbol
  rw [firstOccs_blocks blocks hnd hprops, List.map_map]
  have hcongr : ∀ b ∈ blocks,
      ((fun s => (s, ((blocks.map Prod.snd).flatten).filter
        (fun p => decide (p.symbol = s)))) ∘ Prod.fst) b = id b := by
    intro b hb
    obtain ⟨s, D⟩ := b
    simp only [Function.comp_apply, id_eq]
    rw [filter_flatten_blocks blocks s D hnd hprops hb]
  rw [List.map_congr_left hcongr, List.map_id]

/-! ## Toward C1: the disk write of the flushed batch -/

theorem writeSegment_fresh {d : DiskLayer} {k : String}
    {p : TimeSeriesPoint} {rest' : List TimeSeriesPoint}
    (hfd : assocFind d.metadata k = none) (idx : Nat) :
    writeSegment d k (p :: rest') idx =
      ⟨d.metadata ++ [(k, [(idx, segOf (p :: rest'))])]⟩ := by
  unfold writeSegment
  simp only [hfd, Option.getD_none]
  rw [assocSet_append_of_none _ hfd]
  rfl

theorem nextSegId_fresh {d : DiskLayer} {k : String}
    (hfd : assocFind d.metadata k = none) : nextSegId d k = 0 := by
  unfold nextSegId
  rw [hfd]

theorem diskWriteBatch_fold_blocks :
    ∀ (blocks : List (String × List TimeSeriesPoint)) (d : DiskLayer),
      ((blocks.map Prod.fst).Nodup) →
      (∀ b ∈ blocks, b.2 ≠ [] ∧ List.Sorted tsLe b.2) →
      (∀ k ∈ blocks.map Prod.fst, assocFind d.metadata k = none) →
      (blocks.foldl
          (fun acc g => writeSegment acc g.1 (sortByTs g.2) (nextSegId acc g.1))
          d).metadata =
        d.metadata ++ blocks.map (fun b => (b.1, [(0, segOf b.2)])) := by
  intro blocks
  induction blocks with
  | nil => intro d _ _ _; simp
  | cons b rest ih =>
    intro d hnd hprops hfresh
    obtain ⟨k, D⟩ := b
    rw [List.map_cons, List.nodup_cons] at hnd
    obtain ⟨hDne, hDsorted⟩ := hprops (k, D) (by simp)
    have hfd : assocFind d.metadata k = none := hfresh k (by simp)
    rw [List.foldl_cons]
    have hsort : sortByTs D = D := sortByTs_eq_self hDsorted
    have hstep : writeSegment d k (sortByTs (k, D).2) (nextSegId d (k, D).1) =
        ⟨d.metadata ++ [(k, [(0, segOf D)])]⟩ := by
      simp only
      rw [hsort, nextSegId_fresh hfd]
      cases hD : D with
      | nil => exact absurd hD hDne
      | cons p rest' =>
        rw [writeSegment_fresh hfd 0]
    rw [hstep]
    rw [ih ⟨d.metadata ++ [(k, [(0, segOf D)])]⟩ hnd.2
      (fun b hb => hprops b (List.mem_cons_of_mem _ hb)) ?_]
    · simp
    · intro k' hk'
      have hne : k ≠ k' := by
        intro hcontra
        exact hnd.1 (hcontra ▸ hk')
      show assocFind (d.metadata ++ [(k, [(0, segOf D)])]) k' = none
      rw [assocFind_append_of_none (hfresh k' (by simp [hk']))]
      simp [assocFind, hne]

theorem diskWriteBatch_blocks (blocks : List (String × List TimeSeriesPoint))
    (hnd : (blocks.map Prod.fst).Nodup)
    (hprops : ∀ b ∈ blocks, b.2 ≠ [] ∧ ∀ q ∈ b.2, q.symbol = b.1)
    (hsorted : ∀ b ∈ blocks, List.Sorted tsLe b.2)
    (hne : (blocks.map Prod.snd).flatten ≠ []) :
    diskWriteBatch diskInit ((blocks.map Prod.snd).flatten) =
      ⟨blocks.map (fun b => (b.1, [(0, segOf b.2)]))⟩ := by
  unfold diskWriteBatch
  rw [if_neg (by simpa [List.isEmpty_iff] using hne)]
  rw [groupBySymbol_flatten_blocks blocks hnd hprops]
  have := diskWriteBatch_fold_blocks blocks diskInit hnd
    (fun b hb => ⟨(hprops b hb).1, hsorted b hb⟩) (fun k _ => rfl)
  cases hfold : blocks.foldl
      (fun acc g => writeSegment acc g.1 (sortByTs g.2) (nextSegId acc g.1))
      diskInit with
  | mk meta =>
    rw [hfold] at this
    simp only at this
    rw [this]
    rfl

/-! ## Toward C1: the whole write-flush pipeline -/

theorem batchEntries_props (ps : List TimeSeriesPoint) :
    ((memInsertBatch memInit ps).data.map Prod.fst).Nodup ∧
    ∀ b ∈ (memInsertBatch memInit ps).data,
      b.2 = dedupByTs (sortByTs (ps.filter (fun p => decide (p.symbol = b.1)))) ∧
      b.2 ≠ [] ∧ (∀ q ∈ b.2, q.symbol = b.1) ∧ List.Sorted tsLe b.2 ∧
      (∀ q ∈ b.2, q ∈ ps) := by
  constructor
  · rw [memInsertBatch_init, map_fst_map_pair]
    exact groupBySymbol_keys_nodup ps
  · intro b hb
    rw [memInsertBatch_init] at hb
    rcases List.mem_map.mp hb with ⟨g, hg, rfl⟩
    obtain ⟨s', g2⟩ := g
    obtain ⟨hfilter, hne⟩ := mem_groupBySymbol hg
    simp only
    refine ⟨by rw [hfilter], ?_, ?_, ?_, ?_⟩
    · exact dedup_sort_ne_nil hne
    · intro q hq
      have hqg : q ∈ g2 := mem_dedup_sort hq
      rw [hfilter] at hqg
      have := (List.mem_filter.mp hqg).2
      simpa using this
    · exact sorted_le_of_lt (sorted_lt_dedupByTs (sortByTs_sorted g2))
    · intro q hq
      have hqg : q ∈ g2 := mem_dedup_sort hq
      rw [hfilter] at hqg
      exact (List.mem_filter.mp hqg).1

theorem clearCache_all_nil (m : MemoryLayer) :
    ∀ e ∈ (clearCache m).data, e.2 = [] := by
  intro e he
  unfold clearCache at he
  rcases List.mem_map.mp he with ⟨e', _, rfl⟩
  rfl

theorem engineWriteBatch_cons {st : Engine} {ps : List TimeSeriesPoint}
    (ok : Bool) (h : ps ≠ []) :
    engineWriteBatch st ps ok =
      if st.maxMemoryPoints ≤ (memInsertBatch st.memory ps).totalPoints then
        engineFlush { st with memory := memInsertBatch st.memory ps,
                              totalPoints := st.totalPoints + ps.length } ok
      else (true, { st with memory := memInsertBatch st.memory ps,
                            totalPoints := st.totalPoints + ps.length }) := by
  unfold engineWriteBatch
  rw [if_neg (by simpa [List.isEmpty_iff] using h)]

theorem roundtrip_state (M : Nat) (ps : List TimeSeriesPoint) (hps : ps ≠ [])
    (hbound : ∀ p ∈ ps, tMIN ≤ p.timestamp ∧ p.timestamp ≤ tMAX) :
    (engineFlush (engineWriteBatch (engineInit M) ps true).2 true).2 =
      { memory := clearCache (memInsertBatch memInit ps),
        disk := ⟨(memInsertBatch memInit ps).data.map
                  (fun b => (b.1, [(0, segOf b.2)]))⟩,
        totalPoints := 0 + ps.length,
        cacheHits := 0, cacheMisses := 0, maxMemoryPoints := M } := by
  obtain ⟨hnd, hprops⟩ := batchEntries_props ps
  have hboundLe : ∀ e ∈ (memInsertBatch memInit ps).data, ∀ p ∈ e.2,
      tMIN ≤ p.timestamp ∧ p.timestamp ≤ tMAX := by
    intro e he p hp
    exact hbound p ((hprops e he).2.2.2.2 p hp)
  have hcol : collectPoints (memInsertBatch memInit ps) =
      ((memInsertBatch memInit ps).data.map Prod.snd).flatten :=
    collectPoints_eq_flatten (memInsertBatch memInit ps).data
      (memInsertBatch memInit ps).totalPoints hnd hboundLe
  have hcolne : ((memInsertBatch memInit ps).data.map Prod.snd).flatten ≠ [] := by
    intro hnil
    obtain ⟨p0, hp0⟩ : ∃ p0, p0 ∈ ps := by
      cases ps with
      | nil => exact absurd rfl hps
      | cons p0 rest => exact ⟨p0, by simp⟩
    have hkey : p0.symbol ∈ (memInsertBatch memInit ps).data.map Prod.fst := by
      rw [memInsertBatch_init, map_fst_map_pair, groupBySymbol_keys]
      exact mem_firstOccs.mpr (List.mem_map_of_mem _ hp0)
    rcases List.mem_map.mp hkey with ⟨b, hb, _⟩
    exact (hprops b hb).2.1
      ((List.flatten_eq_nil_iff.mp hnil) b.2 (List.mem_map_of_mem Prod.snd hb))
  have hdisk : diskWriteBatch diskInit
      ((memInsertBatch memInit ps).data.map Prod.snd).flatten =
      ⟨(memInsertBatch memInit ps).data.map (fun b => (b.1, [(0, segOf b.2)]))⟩ :=
    diskWriteBatch_blocks (memInsertBatch memInit ps).data hnd
      (fun b hb => ⟨(hprops b hb).2.1, (hprops b hb).2.2.1⟩)
      (fun b hb => (hprops b hb).2.2.2.1) hcolne
  have hflush1 : ∀ tp : Nat,
      engineFlush ⟨memInsertBatch memInit ps, diskInit, tp, 0, 0, M⟩ true =
        (true, ⟨clearCache (memInsertBatch memInit ps),
                ⟨(memInsertBatch memInit ps).data.map
                  (fun b => (b.1, [(0, segOf b.2)]))⟩,
                tp, 0, 0, M⟩) := by
    intro tp
    unfold engineFlush
    dsimp only
    rw [hcol]
    rw [if_neg (by simpa [List.isEmpty_iff] using hcolne)]
    rw [hdisk]
    rw [if_pos rfl]
  by_cases hth : M ≤ (memInsertBatch memInit ps).totalPoints
  · rw [engineWriteBatch_cons true hps]
    simp only [engineInit]
    rw [if_pos hth]
    rw [hflush1 (0 + ps.length)]
    rw [flush_of_empty true (clearCache_all_nil (memInsertBatch memInit ps))]
  · rw [engineWriteBatch_cons true hps]
    simp only [engineInit]
    rw [if_neg hth]
    rw [hflush1 (0 + ps.length)]

/-! ## Toward C1: reading the round-tripped state back -/

theorem segOf_facts {D : List TimeSeriesPoint} (hne : D ≠ [])
    (hb : ∀ q ∈ D, tMIN ≤ q.timestamp ∧ q.timestamp < tMAX) :
    (segOf D).points = D ∧ (segOf D).startTime ≤ tMAX ∧
      tMIN ≤ (segOf D).endTime := by
  cases D with
  | nil => exact absurd rfl hne
  | cons p rest' =>
    refine ⟨rfl, ?_, ?_⟩
    · exact le_of_lt (hb p (by simp)).2
    · exact (hb _ (List.getLastD_mem_cons rest' p)).1

theorem roundtrip_read (M : Nat) (ps : List TimeSeriesPoint) (s : String)
    (hbound : ∀ p ∈ ps, tMIN ≤ p.timestamp ∧ p.timestamp < tMAX) :
    engineReadRange
      ({ memory := clearCache (memInsertBatch memInit ps),
         disk := ⟨(memInsertBatch memInit ps).data.map
                   (fun b => (b.1, [(0, segOf b.2)]))⟩,
         totalPoints := 0 + ps.length, cacheHits := 0, cacheMisses := 0,
         maxMemoryPoints := M } : Engine) s tMIN tMAX =
      dedupByTs (sortByTs (ps.filter (fun p => decide (p.symbol = s)))) := by
  obtain ⟨hnd, hprops⟩ := batchEntries_props ps
  have hmem : memGetRange (clearCache (memInsertBatch memInit ps)) s tMIN tMAX
      = [] :=
    memGetRange_of_all_nil (clearCache_all_nil (memInsertBatch memInit ps))
      s tMIN tMAX
  unfold engineReadRange
  dsimp only
  rw [hmem]
  by_cases hkey : s ∈ (memInsertBatch memInit ps).data.map Prod.fst
  · rcases List.mem_map.mp hkey with ⟨b, hb, hbs⟩
    obtain ⟨k, D⟩ := b
    simp only at hbs
    subst hbs
    obtain ⟨hD, hDne, _hDsym, hDsorted, hDsub⟩ := hprops (k, D) hb
    simp only at hD hDne hDsorted hDsub
    have hfind : assocFind ((memInsertBatch memInit ps).data.map
        (fun b => (b.1, [(0, segOf b.2)]))) k = some [(0, segOf D)] := by
      have hmember : ((k, [(0, segOf D)]) : String × List (Nat × Segment)) ∈
          (memInsertBatch memInit ps).data.map
            (fun b => (b.1, [(0, segOf b.2)])) :=
        List.mem_map_of_mem (fun b => (b.1, [(0, segOf b.2)])) hb
      have := assocFind_of_nodup
        (by rw [map_fst_map_pair]; exact hnd) hmember
      exact this
    have hDbounds : ∀ q ∈ D, tMIN ≤ q.timestamp ∧ q.timestamp < tMAX :=
      fun q hq => hbound q (hDsub q hq)
    obtain ⟨hpts, hrel1, hrel2⟩ := segOf_facts hDne hDbounds
    simp only [diskReadRange, hfind]
    have hrelf : ([(0, segOf D)].filter
        (fun kv => decide (kv.2.startTime ≤ tMAX) &&
          decide (tMIN ≤ kv.2.endTime))) = [(0, segOf D)] := by
      rw [List.filter_cons_of_pos (by simp [hrel1, hrel2])]
      rfl
    rw [hrelf]
    have hfilterD : (segOf D).points.filter
        (fun p => decide (tMIN ≤ p.timestamp) && decide (p.timestamp < tMAX))
        = D := by
      rw [hpts]
      apply List.filter_eq_self.mpr
      intro q hq
      simp [(hDbounds q hq).1, (hDbounds q hq).2]
    simp only [List.map_cons, List.map_nil, hfilterD, List.flatten_cons,
      List.flatten_nil, List.append_nil, List.nil_append]
    have hsds : sortByTs D = D := sortByTs_eq_self hDsorted
    rw [hsds, hsds, hD]
  · have hfind : assocFind ((memInsertBatch memInit ps).data.map
        (fun b => (b.1, [(0, segOf b.2)]))) s = none := by
      apply assocFind_eq_none.mpr
      rw [map_fst_map_pair]
      exact hkey
    simp only [diskReadRange, hfind]
    have hins : ps.filter (fun p => decide (p.symbol = s)) = [] := by
      apply List.filter_eq_nil_iff.mpr
      intro p hp
      have hmemkey : p.symbol ∈ (memInsertBatch memInit ps).data.map Prod.fst := by
        rw [memInsertBatch_init, map_fst_map_pair, groupBySymbol_keys]
        exact mem_firstOccs.mpr (List.mem_map_of_mem _ hp)
      intro hcontra
      rw [decide_eq_true_eq] at hcontra
      exact hkey (hcontra ▸ hmemkey)
    rw [hins]
    simp [sortByTs, dedupByTs]

/-- C1 as amended: writing any batch whose timestamps are strictly below
`time_point::max()` into an empty engine, flushing, and reading the full
time range back yields, per symbol, a sequence strictly increasing in
timestamp whose elements are input points of that symbol and whose
timestamps are exactly the distinct input timestamps of that symbol.  The
restriction is forced by the counterexample below: a point at exactly
`time_point::max()` is flushed (the memory collection is inclusive) but
dropped on read-back by the disk layer's exclusive `timestamp < end`
filter — the spec's own upper-bound inconsistency. -/
theorem c1_roundtrip_through_disk (M : Nat) (batch : List TimeSeriesPoint)
    (s : String)
    (hbound : ∀ p ∈ batch, tMIN ≤ p.timestamp ∧ p.timestamp < tMAX) :
    List.Pairwise (· < ·)
      ((engineReadRange
          (engineFlush (engineWriteBatch (engineInit M) batch true).2 true).2
          s tMIN tMAX).map TimeSeriesPoint.timestamp) ∧
    (∀ q ∈ engineReadRange
        (engineFlush (engineWriteBatch (engineInit M) batch true).2 true).2
        s tMIN tMAX,
      q ∈ batch.filter (fun p => decide (p.symbol = s))) ∧
    (∀ t : Int,
      t ∈ (engineReadRange
            (engineFlush (engineWriteBatch (engineInit M) batch true).2 true).2
            s tMIN tMAX).map TimeSeriesPoint.timestamp ↔
      t ∈ (batch.filter (fun p => decide (p.symbol = s))).map
            TimeSeriesPoint.timestamp) := by
  by_cases hps : batch = []
  · subst hps
    have h1 : engineWriteBatch (engineInit M) [] true = (true, engineInit M) := by
      unfold engineWriteBatch
      simp
    have h2 : engineFlush (engineInit M) true = (true, engineInit M) :=
      flush_of_empty true (by intro e he; simp [engineInit, memInit] at he)
    rw [h1]
    dsimp only
    rw [h2]
    dsimp only
    have hread : engineReadRange (engineInit M) s tMIN tMAX = [] := by
      unfold engineReadRange memGetRange diskReadRange
      rfl
    rw [hread]
    simp
  · rw [roundtrip_state M batch hps
        (fun p hp => ⟨(hbound p hp).1, le_of_lt (hbound p hp).2⟩),
      roundtrip_read M batch s hbound]
    refine ⟨?_, ?_, ?_⟩
    · rw [List.pairwise_map]
      exact sorted_lt_dedupByTs (sortByTs_sorted _)
    · intro q hq
      exact mem_dedup_sort hq
    · intro t
      rw [ts_mem_dedupByTs, ts_mem_sortByTs]

/-- Witness for C1: the four-point two-symbol batch `exBatch` (with one
duplicated timestamp), read back for symbol "A". -/
theorem c1_roundtrip_through_disk_witness :
    (∀ p ∈ exBatch, tMIN ≤ p.timestamp ∧ p.timestamp < tMAX) ∧
    (List.Pairwise (· < ·)
      ((engineReadRange
          (engineFlush (engineWriteBatch (engineInit 1000000) exBatch true).2
            true).2 "A" tMIN tMAX).map TimeSeriesPoint.timestamp) ∧
    (∀ q ∈ engineReadRange
        (engineFlush (engineWriteBatch (engineInit 1000000) exBatch true).2
          true).2 "A" tMIN tMAX,
      q ∈ exBatch.filter (fun p => decide (p.symbol = "A"))) ∧
    (∀ t : Int,
      t ∈ (engineReadRange
            (engineFlush (engineWriteBatch (engineInit 1000000) exBatch true).2
              true).2 "A" tMIN tMAX).map TimeSeriesPoint.timestamp ↔
      t ∈ (exBatch.filter (fun p => decide (p.symbol = "A"))).map
            TimeSeriesPoint.timestamp)) :=
  ⟨by decide, c1_roundtrip_through_disk 1000000 exBatch "A" (by decide)⟩

theorem memInsertBatch_maxTs :
    memInsertBatch memInit [⟨tMAX, 1, "A"⟩] =
      ⟨[("A", [⟨tMAX, 1, "A"⟩])], 1⟩ := by
  simp [memInsertBatch, groupBySymbol, firstOccs, memMergeStep, assocFind,
    assocSet, memInit, mergeByTs, dedupByTs, sortByTs, List.insertionSort]

theorem maxTs_read_empty :
    engineReadRange
      (engineFlush (engineWriteBatch (engineInit 1000000)
        [⟨tMAX, 1, "A"⟩] true).2 true).2 "A" tMIN tMAX = [] := by
  have hstate := roundtrip_state 1000000 [⟨tMAX, 1, "A"⟩] (by simp) (by decide)
  rw [memInsertBatch_maxTs] at hstate
  rw [hstate]
  rfl

/-- C1 as originally stated is violated by the code at a batch holding one
point at `time_point::max()`: the inclusive memory collection flushes the
point to disk, but the full-range read-back goes through the disk layer's
exclusive filter `timestamp < end` with `end = time_point::max()`, so the
output is empty while the input has the distinct timestamp
`time_point::max()`. -/
theorem c1_roundtrip_through_disk_counterexample :
    engineReadRange
      (engineFlush (engineWriteBatch (engineInit 1000000)
        [⟨tMAX, 1, "A"⟩] true).2 true).2 "A" tMIN tMAX = [] ∧
    ¬ (∀ t : Int,
      t ∈ (engineReadRange
            (engineFlush (engineWriteBatch (engineInit 1000000)
              [⟨tMAX, 1, "A"⟩] true).2 true).2 "A" tMIN tMAX).map
            TimeSeriesPoint.timestamp ↔
      t ∈ (([⟨tMAX, 1, "A"⟩] : List TimeSeriesPoint).filter
            (fun p => decide (p.symbol = "A"))).map TimeSeriesPoint.timestamp) := by
  refine ⟨maxTs_read_empty, ?_⟩
  intro hall
  have h1 : (tMAX : Int) ∈ (([⟨tMAX, 1, "A"⟩] : List TimeSeriesPoint).filter
      (fun p => decide (p.symbol = "A"))).map TimeSeriesPoint.timestamp := by
    simp
  have h2 := (hall tMAX).mpr h1
  rw [maxTs_read_empty] at h2
  simp at h2

/-! ## Claim C2 -/

/-- C2 is violated by the code: compacting a symbol whose two segments share
timestamp 1 keeps both points in the rewritten segment — the
`compact_segments` path (`Impl::optimize_segments`) sorts but never removes
duplicates, although the spec, the sibling `optimize_index` path, and the
repository's own `DiskLayerTest.Compaction` test all require at most one
point per distinct timestamp after compaction. -/
theorem c2_compact_retains_duplicates :
    (compactSegments dupDisk "A").metadata =
      [("A", [(0, ⟨1, 1, [⟨1, 10, "A"⟩, ⟨1, 20, "A"⟩]⟩)])] ∧
    ((compactSegments dupDisk "A").metadata.flatMap
        (fun e => e.2.flatMap (fun kv => kv.2.points))).countP
      (fun p => decide (p.timestamp = 1)) = 2 := by
  constructor
  · rfl
  · rfl

/-! ## Claim C8 -/

/-- C8 is violated by the code: a data-directory entry named
`foo_bar_baz.dat` has underscores, so it passes the only skip checks, and
`std::stoll("bar")` then throws `std::invalid_argument`, aborting the
startup scan (and `DiskLayer` construction) instead of skipping the file.
Names without the `.dat` extension or without an underscore are skipped as
the claim describes. -/
theorem c8_scan_aborts_on_nonnumeric_name :
    loadExistingSegments [("foo_bar_baz.dat", 7)] = Except.error () ∧
    loadExistingSegments [("nounderscore.dat", 7), ("notdat.seg", 1)] =
      Except.ok [] := by
  constructor
  · rfl
  · rfl

end FindataEngine
